import Mathlib

/-!
A verification development for the extended linear scan register allocator
in `hphp/runtime/vm/jit/vasm-xls.cpp`.

The C++ data structures and functions used by the allocator are embedded
shallowly: positions are `Nat`, machine "infinity" is the literal
`kMaxPos = UINT_MAX`, vectors are `List`s (with the C++ `back()` end made
explicit in each definition's comment), and debug assertions / PUNT failures
are modelled with `Except`.
-/

namespace VasmXls

/-- `UINT_MAX`, the "infinity" use position (`kMaxPos` in vasm-xls.cpp). -/
def kMaxPos : Nat := 4294967295

/-- Vreg discriminator (`enum class Constraint` in vasm-xls.cpp). -/
inductive Constraint where
  | Any
  | CopySrc
  | Gpr
  | Simd
  | Sf
deriving DecidableEq

/-- A closed-open range of positions where an interval is live
(`struct LiveRange`).  The C++ field `end` is a Lean keyword, so it is
called `stop` here. -/
structure LiveRange where
  start : Nat
  stop : Nat
deriving DecidableEq

/-- `LiveRange::contains(unsigned pos)`: `pos >= start && pos < end`. -/
def LiveRange.containsPos (r : LiveRange) (pos : Nat) : Bool :=
  pos ≥ r.start && pos < r.stop

/-- `LiveRange::intersects(LiveRange r)`: `r.start < end && start < r.end`. -/
def LiveRange.intersects (r other : LiveRange) : Bool :=
  other.start < r.stop && r.start < other.stop

/-- `LiveRange::contains(LiveRange r)`: `r.start >= start && r.end <= end`. -/
def LiveRange.containsRange (r other : LiveRange) : Bool :=
  other.start ≥ r.start && other.stop ≤ r.stop

/-- A use or def position of an interval (`struct Use`).  The hint is a
Vreg number; `none` models an invalid (absent) hint. -/
structure Use where
  kind : Constraint
  pos : Nat
  hint : Option Nat := none
deriving DecidableEq

/-- The fields of `struct Interval` needed by the queries under
verification.  An interval stores a sorted list of disjoint ranges and a
sorted list of uses; `parent = true` means the C++ `parent` pointer is
non-null (the interval is a split child), `vregPhys` is `vreg.isPhys()`. -/
structure Interval where
  parent : Bool := false
  ranges : List LiveRange := []
  uses : List Use := []
  vregPhys : Bool := false
  wide : Bool := false
  constant : Bool := false
  def_pos : Nat := 0
  reg : Option Nat := none
  slot : Option Nat := none
deriving DecidableEq

/-- `Interval::start()`: `ranges.front().start`.  The C++ call on an empty
vector is undefined; `0` stands in and every theorem that uses `start`
assumes a non-empty range list. -/
def Interval.start (ivl : Interval) : Nat :=
  match ivl.ranges with
  | [] => 0
  | r :: _ => r.start

/-- `Interval::end()`: `ranges.back().end`. -/
def Interval.stop (ivl : Interval) : Nat :=
  match ivl.ranges.getLast? with
  | none => 0
  | some r => r.stop

/-- `Interval::fixed()`: `vreg.isPhys()`. -/
def Interval.fixed (ivl : Interval) : Bool := ivl.vregPhys

/-- `Interval::findRange(pos)`.  The C++ code is a binary search over the
sorted range vector; its documented contract — "the index of the first
range that is not strictly lower than `pos`" — is this first index `i`
with `pos < ranges[i].end`, which the binary search computes on every
sorted, disjoint range list. -/
def findRange (rs : List LiveRange) (pos : Nat) : Nat :=
  match rs with
  | [] => 0
  | r :: rest => if pos < r.stop then 0 else findRange rest pos + 1

/-- `Interval::findUse(pos)`.  Again a binary search; on a sorted use list
with pairwise distinct positions it returns the first index `i` with
`pos ≤ uses[i].pos`, which is this function. -/
def findUse (us : List Use) (pos : Nat) : Nat :=
  match us with
  | [] => 0
  | u :: rest => if pos ≤ u.pos then 0 else findUse rest pos + 1

/-- `Interval::covers(pos)`: out-of-bounds positions are rejected, then the
range located by `findRange` is tested for containment. -/
def Interval.covers (ivl : Interval) (pos : Nat) : Bool :=
  if pos < ivl.start ∨ pos ≥ ivl.stop then false
  else
    match (ivl.ranges.drop (findRange ivl.ranges pos)).head? with
    | some r => r.containsPos pos
    | none => false

/-- `Interval::usedAt(pos)`: note the `pos > end()` (not `≥`) bound — a use
exactly at `end()` is accepted. -/
def Interval.usedAt (ivl : Interval) (pos : Nat) : Bool :=
  if pos < ivl.start ∨ pos > ivl.stop then false
  else
    match (ivl.uses.drop (findUse ivl.uses pos)).head? with
    | some u => pos == u.pos
    | none => false

/-- `Interval::childAt(pos)`: walk the chain (leader first), return the
first child with a use at `pos`; stop early once `pos` precedes a child's
start.  The chain is passed as the list `leader :: children`. -/
def childAt (chain : List Interval) (pos : Nat) : Option Interval :=
  match chain with
  | [] => none
  | ivl :: rest =>
    if pos < ivl.start then none
    else if ivl.usedAt pos then some ivl
    else childAt rest pos

/-- `Interval::firstUse()`: position of the first use whose kind is not
`CopySrc`, else `kMaxPos`. -/
def firstUse (us : List Use) : Nat :=
  match us with
  | [] => kMaxPos
  | u :: rest => if u.kind == Constraint.CopySrc then firstUse rest else u.pos

/-- `Interval::firstUseAfter(pos)`: first non-`CopySrc` use at `≥ pos`,
else `kMaxPos`. -/
def firstUseAfter (us : List Use) (pos : Nat) : Nat :=
  match us with
  | [] => kMaxPos
  | u :: rest =>
    if u.kind == Constraint.CopySrc then firstUseAfter rest pos
    else if u.pos ≥ pos then u.pos
    else firstUseAfter rest pos

---------------------------------------------------------------------------
-- Interval splitting.
/-- The range division step of `Interval::split(pos)`: ranges strictly
below `findRange(pos)` stay with the first part; a range straddling `pos`
(`pos > r1->start`) is cut into `[r1.start, pos)` kept by the first part
and `[pos, r1.end)` given to the child; the rest moves to the child. -/
def splitRanges (rs : List LiveRange) (pos : Nat) :
    List LiveRange × List LiveRange :=
  let k := findRange rs pos
  match rs.drop k with
  | [] => (rs.take k, [])
  | r :: rest =>
    if pos > r.start then
      (rs.take k ++ [LiveRange.mk r.start pos], LiveRange.mk pos r.stop :: rest)
    else
      (rs.take k, r :: rest)

/-- The use division step of `Interval::split`: starting from
`findUse(end())` (`firstEnd` is the first part's new end), advance past
positions `≤ firstEnd` when `keep_uses`, else past positions
`< childStart`, and move the remainder to the child. -/
def splitUses (us : List Use) (firstEnd childStart : Nat) (keep_uses : Bool) :
    List Use × List Use :=
  let j := findUse us firstEnd
  let tail := us.drop j
  let keepPred : Use → Bool :=
    if keep_uses then (fun u => u.pos ≤ firstEnd)
    else (fun u => u.pos < childStart)
  (us.take j ++ tail.takeWhile keepPred, tail.dropWhile keepPred)

/-- `Interval::split(pos, keep_uses)`, functionally: the pair of the
modified first interval and the new child. -/
def Interval.split (ivl : Interval) (pos : Nat) (keep_uses : Bool) :
    Interval × Interval :=
  let fr := (splitRanges ivl.ranges pos).1
  let cr := (splitRanges ivl.ranges pos).2
  let firstEnd := match fr.getLast? with
    | none => 0
    | some r => r.stop
  let childStart := match cr with
    | [] => 0
    | r :: _ => r.start
  ({ ivl with ranges := fr,
              uses := (splitUses ivl.uses firstEnd childStart keep_uses).1 },
   { parent := true, ranges := cr,
     uses := (splitUses ivl.uses firstEnd childStart keep_uses).2,
     vregPhys := ivl.vregPhys, wide := ivl.wide, constant := ivl.constant,
     def_pos := ivl.def_pos })

---------------------------------------------------------------------------
-- Block positions, blockFor, nearestSplitBefore.
/-- `computePositions`: blocks are laid out consecutively, every
instruction occupies two positions, so a block of `len` instructions
starting at `pos` gets the range `[pos, pos + 2*len)`.  The input is the
per-block instruction count (after the nop-prepending step). -/
def computePositions (lens : List Nat) (pos : Nat) : List LiveRange :=
  match lens with
  | [] => []
  | len :: rest => ⟨pos, pos + 2 * len⟩ :: computePositions rest (pos + 2 * len)

/-- `blockFor(ctx, pos)`: the index of the block whose range contains
`pos`.  The C++ binary search over the sorted, contiguous block ranges
finds the unique containing block, or hits `always_assert(false)`
(modelled by `none`). -/
def blockFor (block_ranges : List LiveRange) (pos : Nat) : Option Nat :=
  match block_ranges with
  | [] => none
  | r :: rest =>
    if r.containsPos pos then some 0 else (blockFor rest pos).map (· + 1)

/-- `Vxls::nearestSplitBefore(pos)`: `pos` itself when `pos` is the start
of its enclosing block, else `(pos - 1) | 1`.  `0` stands in for the
`always_assert` failure inside `blockFor` when no block contains `pos`. -/
def nearestSplitBefore (block_ranges : List LiveRange) (pos : Nat) : Nat :=
  match blockFor block_ranges pos with
  | none => 0
  | some b =>
    let range := block_ranges.getD b ⟨0, 0⟩
    if pos = range.start then pos else (pos - 1) ||| 1

---------------------------------------------------------------------------
-- Stack-pointer effects (spEffect).
/-- The instructions `spEffect` distinguishes.  Registers are identified by
number; `other defs` stands for every remaining opcode together with the
set of registers it defines (visited by `visitDefs` in the debug assert). -/
inductive Vinstr where
  | push
  | pop
  | addqi (imm : Int) (s1 d : Nat)
  | subqi (imm : Int) (s1 d : Nat)
  | lea (base : Option Nat) (index : Option Nat) (disp : Int) (d : Nat)
  | other (defsList : List Nat)
deriving DecidableEq

/-- `spEffect(unit, inst, sp)`.  Debug assertions (`assertx`) are modelled
as `Except.error ()`: an `addqi`/`subqi` writing `sp` must read `sp`, a
`lea` writing `sp` must be `lea sp, [sp+disp]` with no index, and no other
instruction may define `sp`. -/
def spEffect (sp : Nat) (inst : Vinstr) : Except Unit Int :=
  match inst with
  | .push => .ok (-8)
  | .pop => .ok 8
  | .addqi imm s1 d =>
    if d = sp then (if s1 = sp then .ok imm else .error ()) else .ok 0
  | .subqi imm s1 d =>
    if d = sp then (if s1 = sp then .ok (-imm) else .error ()) else .ok 0
  | .lea base index disp d =>
    if d = sp then
      (if base = some d ∧ index = none then .ok disp else .error ())
    else .ok 0
  | .other defsList =>
    if sp ∈ defsList then .error () else .ok 0

/-- Whether an instruction defines `sp` (what `visitDefs` reports for the
embedded instruction forms). -/
def definesSp (sp : Nat) (inst : Vinstr) : Prop :=
  match inst with
  | .push => False
  | .pop => False
  | .addqi _ _ d => d = sp
  | .subqi _ _ d => d = sp
  | .lea _ _ _ d => d = sp
  | .other defsList => sp ∈ defsList

instance (sp : Nat) (inst : Vinstr) : Decidable (definesSp sp inst) := by
  cases inst <;> simp [definesSp] <;> infer_instance

---------------------------------------------------------------------------
-- Spill slots: assignSpill, spill, assignReg.
/-- The two allocation-aborting punts of vasm-xls.cpp. -/
inductive Punt where
  | LinearScan_TooManySpills
  | RegSpill
deriving DecidableEq

/-- The spill-slot portion of the `Vxls` state: per-slot watermarks
(`spill_slots`, `kMaxPos` while owned), and the `SpillInfo` counters. -/
structure SpillState where
  spill_slots : List Nat
  num_spills : Nat := 0
  used_spill_slots : Nat := 0
deriving DecidableEq

/-- The narrow-interval slot search of `Vxls::assignSpill`: the first slot
whose watermark is at or below the leader's start. -/
def findSlot (slots : List Nat) (lstart : Nat) : Option Nat :=
  match slots with
  | [] => none
  | wm :: rest =>
    if lstart ≥ wm then some 0 else (findSlot rest lstart).map (· + 1)

/-- The wide-interval slot search of `Vxls::assignSpill`: even slots are
scanned pairwise (`slot < size - 1`, step 2) for a pair of watermarks both
at or below the leader's start. -/
def findSlotWide (slots : List Nat) (lstart : Nat) : Option Nat :=
  match slots with
  | wm0 :: wm1 :: rest =>
    if lstart ≥ wm0 && lstart ≥ wm1 then some 0
    else (findSlotWide rest lstart).map (· + 2)
  | _ => none

/-- The `assign_slot` lambda in `Vxls::assignSpill`: mark the slot (and
its partner when wide) owned (`kMaxPos`), bump the counters. -/
def assign_slot (st : SpillState) (slot : Nat) (wide : Bool) : SpillState :=
  if wide then
    { spill_slots := (st.spill_slots.set slot kMaxPos).set (slot + 1) kMaxPos,
      num_spills := st.num_spills + 1,
      used_spill_slots := max st.used_spill_slots (slot + 2) }
  else
    { spill_slots := st.spill_slots.set slot kMaxPos,
      num_spills := st.num_spills + 1,
      used_spill_slots := max st.used_spill_slots (slot + 1) }

/-- `Vxls::assignSpill(ivl)`.  The C++ reads the chain's shared slot
through `ivl->parent`; the leader's current slot and start position are
passed explicitly here.  Returns the slot given to `ivl`, or punts with
`LinearScan_TooManySpills` when no slot's watermark permits reuse. -/
def assignSpill (st : SpillState) (leaderSlot : Option Nat)
    (leaderStart : Nat) (wide : Bool) : Except Punt (SpillState × Nat) :=
  match leaderSlot with
  | some s => .ok (st, s)
  | none =>
    match (if wide then findSlotWide st.spill_slots leaderStart
           else findSlot st.spill_slots leaderStart) with
    | some slot => .ok (assign_slot st slot wide, slot)
    | none => .error .LinearScan_TooManySpills

/-- `Vxls::spill(ivl)`: split before the first register-requiring use
(punting with `RegSpill` when that split would not be after the
interval's start), clear the register, and assign a spill slot unless the
interval is a constant.  Returns the updated state, the spilled interval,
and the enqueued second part if a split happened. -/
def spill (block_ranges : List LiveRange) (st : SpillState) (ivl : Interval)
    (leaderSlot : Option Nat) (leaderStart : Nat) :
    Except Punt (SpillState × Interval × Option Interval) :=
  let first_use := firstUse ivl.uses
  let splitPart : Except Punt (Interval × Option Interval) :=
    if first_use ≤ ivl.stop then
      let split_pos := nearestSplitBefore block_ranges first_use
      if split_pos ≤ ivl.start then .error .RegSpill
      else
        let p := ivl.split split_pos false
        .ok (p.1, some p.2)
    else .ok (ivl, none)
  match splitPart with
  | .error e => .error e
  | .ok (first, second) =>
    if ivl.constant then .ok (st, { first with reg := none }, second)
    else
      match assignSpill st leaderSlot leaderStart ivl.wide with
      | .error e => .error e
      | .ok (st', slot) =>
        .ok (st', { first with reg := none, slot := some slot }, second)

/-- `Vxls::assignReg(ivl, r)`: a non-fixed interval with no uses gets
`InvalidReg` and (unless constant) a spill slot; otherwise it receives
`r` and joins the active list. -/
def assignReg (st : SpillState) (active : List Interval) (ivl : Interval)
    (r : Nat) (leaderSlot : Option Nat) (leaderStart : Nat) :
    Except Punt (SpillState × Interval × List Interval) :=
  if ¬ivl.fixed && ivl.uses.isEmpty then
    if ivl.constant then .ok (st, { ivl with reg := none }, active)
    else
      match assignSpill st leaderSlot leaderStart ivl.wide with
      | .error e => .error e
      | .ok (st', slot) =>
        .ok (st', { ivl with reg := none, slot := some slot }, active)
  else
    .ok (st, { ivl with reg := some r }, active ++ [{ ivl with reg := some r }])

---------------------------------------------------------------------------
-- Resolution: insertSpill / resolveSplits (C8).
/-- The chain-internal copies recorded by the inner loop of
`resolveSplits`: for each adjacent pair `(i1, i2)` with `i1->end() ==
i2->start()`, a loaded (`reg != InvalidReg`), differently-assigned `i2`
gets a copy at the odd, non-block-boundary position `i2->start()`.  Even
positions are asserted to be block starts and record nothing; a position
just before the block end leaves the copy to the successor edge. -/
def splitCopies (block_ranges : List LiveRange) :
    List Interval → List (Nat × Option Nat × Interval)
  | i1 :: i2 :: rest =>
    let tail := splitCopies block_ranges (i2 :: rest)
    let pos := i2.start
    if i1.stop ≠ pos then tail
    else if i2.reg = none then tail
    else if i2.reg = i1.reg then tail
    else
      let range := block_ranges.getD ((blockFor block_ranges pos).getD 0) ⟨0, 0⟩
      if pos % 2 = 0 then tail
      else if pos + 1 = range.stop then tail
      else (pos, i2.reg, i1) :: tail
  | _ => []

/-- `insertSpill(ctx, resolution, ivl)`: record a store for the root at
one position after its single def, keyed by the root's register.  The
spill plan is the list of `(position, register, interval)` entries in
recording order. -/
def insertSpill (resolution : List (Nat × Option Nat × Interval))
    (ivl : Interval) : List (Nat × Option Nat × Interval) :=
  resolution ++ [(ivl.def_pos + 1, ivl.reg, ivl)]

/-- `resolveSplits(ctx, intervals, resolution)`: chains are the non-null
entries of the parent-interval vector, each passed as `root :: children`.
A chain whose root has a spill slot records one spill store; every chain
contributes its split copies.  Returns `(spills, copies)`. -/
def resolveSplits (block_ranges : List LiveRange) :
    List (Option (List Interval)) →
      List (Nat × Option Nat × Interval) × List (Nat × Option Nat × Interval)
  | [] => ([], [])
  | none :: rest => resolveSplits block_ranges rest
  | some chain :: rest =>
    let spillsHere :=
      match chain.head? with
      | none => []
      | some root => if root.slot.isSome then insertSpill [] root else []
    let r := resolveSplits block_ranges rest
    (spillsHere ++ r.1, splitCopies block_ranges chain ++ r.2)

---------------------------------------------------------------------------
-- Split semantics (C2).
/-- Positions covered by a range list. -/
def coveredBy (rs : List LiveRange) (q : Nat) : Prop :=
  ∃ r ∈ rs, r.containsPos q = true

---------------------------------------------------------------------------
-- nextIntersect (C3).
/-- The two-finger search loop of `nextIntersect` over the two range
lists.  The C++ loop dereferences both fingers unconditionally; its
callers guarantee non-empty tails (`update()` evicts expired intervals),
and in this total model an exhausted list means no intersection
(`kMaxPos`), which the correctness theorem shows is the right value. -/
def nextIntersectLoop : List LiveRange → List LiveRange → Nat
  | r1 :: t1, r2 :: t2 =>
    if r1.start < r2.start then
      if r2.start < r1.stop then r2.start
      else nextIntersectLoop t1 (r2 :: t2)
    else
      if r1.start < r2.stop then r1.start
      else nextIntersectLoop (r1 :: t1) t2
  | _, _ => kMaxPos
termination_by l1 l2 => l1.length + l2.length
decreasing_by
  · simp
  · simp

/-- `nextIntersect(current, other)`: the SSA fast path (both unsplit,
`other` not fixed) returns `kMaxPos` outright; an `other` starting at or
after `current`'s end cannot intersect; otherwise the two-finger loop
runs, with `other`'s finger starting at `findRange(current->start())`. -/
def nextIntersect (current other : Interval) : Nat :=
  if !current.parent && !other.parent && !other.fixed then kMaxPos
  else if current.stop ≤ other.start then kMaxPos
  else
    nextIntersectLoop current.ranges
      (other.ranges.drop (findRange other.ranges current.start))

---------------------------------------------------------------------------
-- Spill-slot reuse (C6).
/-- One spill slot's state across the allocation loop: its watermark
(`spill_slots[slot]`), the chain currently owning it (as its lifetime
`[leader start, chain end)`), and the history of every chain ever given
the slot. -/
structure SlotState where
  watermark : Nat
  owner : Option (Nat × Nat)
  owners : List (Nat × Nat)

/-- `spill_slots` is zero-initialised (`jit::array<unsigned,
kMaxSpillSlots> spill_slots{{0}}`). -/
def initSlotState : SlotState := ⟨0, none, []⟩

/-- The two events touching a slot's watermark, with the guards the code
enforces: `assign` is `assignSpill` handing the slot to a chain `[st,
en)` — guarded by `leader->start() >= spill_slots[slot]`, it sets the
watermark to `kMaxPos`; `free` is `free_spill_slot` inside `update()`
when the owning chain's last child expires — it releases the watermark to
that chain's end.  `st < kMaxPos` and `st ≤ en` record that a real chain
starts below `UINT_MAX` and does not end before it starts. -/
inductive SlotStep : SlotState → SlotState → Prop where
  | assign (s : SlotState) (st en : Nat)
      (hguard : st ≥ s.watermark) (hlt : st < kMaxPos) (hle : st ≤ en) :
      SlotStep s ⟨kMaxPos, some (st, en), s.owners ++ [(st, en)]⟩
  | free (s : SlotState) (st en : Nat) (hown : s.owner = some (st, en)) :
      SlotStep s ⟨en, none, s.owners⟩

/-- States a slot can reach from its zero-initialised start. -/
inductive SlotReach : SlotState → Prop where
  | init : SlotReach initSlotState
  | step {s t : SlotState} : SlotReach s → SlotStep s t → SlotReach t

/-- The inductive invariant of one slot: its owner history is
chronologically ordered with non-overlapping lifetimes, every lifetime is
non-empty in the weak sense, the watermark is `kMaxPos` exactly while
owned (and then the owner is the most recent history entry), and after a
release the watermark bounds every past owner's end. -/
def SlotInv (s : SlotState) : Prop :=
  s.owners.Pairwise (fun a b => a.2 ≤ b.1) ∧
  (∀ o ∈ s.owners, o.1 ≤ o.2) ∧
  (match s.owner with
   | some c => s.watermark = kMaxPos ∧ s.owners.getLast? = some c
   | none => ∀ o ∈ s.owners, o.2 ≤ s.watermark)

---------------------------------------------------------------------------
-- Interval construction: addRange and buildIntervals (C1).
/-- One instruction's relation to a fixed vreg `v`: whether the
instruction defines, uses, or uses-across `v` (the `DefVisitor` /
`UseVisitor` callbacks restricted to `v`; operand multiplicity is
collapsed — repeated same-position uses change no well-formedness
property). -/
structure PInstr where
  hasDef : Bool
  hasUse : Bool
  hasAcross : Bool
deriving DecidableEq

/-- One block from the perspective of `v`: its instructions in forward
order, and whether `v` is in the union of its successors' live-in sets
(the `live` set at the start of the block's backward walk). -/
structure PBlock where
  insts : List PInstr
  liveOut : Bool
deriving DecidableEq

/-- The per-vreg state of `buildIntervals`' backward pass.  The C++
builds the range and use vectors in descending order (`back()` = lowest
position) and reverses both at the end; here the lists are kept
head-at-lowest throughout, so C++ `push_back`/`back()` become `::`/head
and the final reversal is the identity. -/
structure BuildState where
  live : Bool
  ranges : List LiveRange
  uses : List Nat
deriving DecidableEq

/-- `addRange(ivl, r)` (ranges in reverse order, `r` precedes or overlaps
the first range): pop trailing ranges enclosed by `r`, then keep the
first range if it encloses `r`, extend it down to `r.start` when
`r.end >= first.start`, else push `r`.  Head-at-lowest: C++ `back()` is
the list head. -/
def addRange (rs : List LiveRange) (r : LiveRange) : List LiveRange :=
  match rs with
  | [] => [r]
  | first :: rest =>
    if r.containsRange first then addRange rest r
    else if first.containsRange r then first :: rest
    else if r.stop ≥ first.start then
      { start := r.start, stop := first.stop } :: rest
    else r :: first :: rest

/-- One visitor event: add a range via `addRange`, push a use position,
and set the liveness bit (the common body of `DefVisitor::def` in its
dead branch and `UseVisitor::use`). -/
def pushEvent (st : BuildState) (r : LiveRange) (u : Nat) (lv : Bool) :
    BuildState :=
  { live := lv, ranges := addRange st.ranges r, uses := u :: st.uses }

/-- Process one instruction at position `p` of the block starting at
`bstart`, in the visitation order of `buildIntervals`: the def pass
(when live, trim the latest range's start to `p` and clear liveness;
else seed the dead-def range `[p, p+1)`; record a use at `p`), then the
use pass (set live, add `[bstart, p)`, record a use at `p`), then the
across pass (range `[bstart, p+1)` extending past the instruction, but
the recorded use position is still `p` — `UseVisitor::across` passes
`m_range.end + 1` only as the range end and pushes `m_range.end`). -/
def doInstr (st : BuildState) (i : PInstr) (bstart p : Nat) : BuildState :=
  let st1 :=
    if i.hasDef then
      if st.live then
        { live := false,
          ranges := match st.ranges with
                    | first :: rest => { first with start := p } :: rest
                    | [] => [],
          uses := p :: st.uses }
      else pushEvent st ⟨p, p + 1⟩ p false
    else st
  let st2 := if i.hasUse then pushEvent st1 ⟨bstart, p⟩ p true else st1
  if i.hasAcross then pushEvent st2 ⟨bstart, p + 1⟩ p true else st2

/-- Walk a block's instructions bottom-up; the head of `insts` sits at
position `p` and is processed last. -/
def doInstrsRev (insts : List PInstr) (bstart p : Nat) (st : BuildState) :
    BuildState :=
  match insts with
  | [] => st
  | i :: rest => doInstr (doInstrsRev rest bstart (p + 2) st) i bstart p

/-- Process one block: reset `live` to the union of the successors'
live-in bit, add a block-wide range when live, then walk the
instructions bottom-up. -/
def doBlock (st : BuildState) (b : PBlock) (brange : LiveRange) :
    BuildState :=
  let st0 : BuildState :=
    { live := b.liveOut,
      ranges := if b.liveOut then addRange st.ranges brange else st.ranges,
      uses := st.uses }
  doInstrsRev b.insts brange.start brange.start st0

/-- Pair every block with its position range, blocks laid out
consecutively (as `computePositions` does). -/
def positionBlocks (blocks : List PBlock) (pos : Nat) :
    List (PBlock × LiveRange) :=
  match blocks with
  | [] => []
  | b :: rest =>
    (b, ⟨pos, pos + 2 * b.insts.length⟩) ::
      positionBlocks rest (pos + 2 * b.insts.length)

/-- Process positioned blocks in reverse order (last block first). -/
def buildPass (pbs : List (PBlock × LiveRange)) (st : BuildState) :
    BuildState :=
  match pbs with
  | [] => st
  | (b, r) :: rest => doBlock (buildPass rest st) b r

/-- `buildIntervals` restricted to one vreg: the backward pass over all
blocks from an empty interval, then the constant extension
(`ivl->ranges.back().start = 0`, the lowest range in this head-at-lowest
representation).  The final `std::reverse` is the identity here, so the
result lists are in ascending order.  Returns `(ranges, uses)`. -/
def buildIntervalV (blocks : List PBlock) (isConst : Bool) :
    List LiveRange × List Nat :=
  let st := buildPass (positionBlocks blocks 0) ⟨false, [], []⟩
  let rs :=
    if isConst then
      match st.ranges with
      | first :: rest => { first with start := 0 } :: rest
      | [] => []
    else st.ranges
  (rs, st.uses)

/-- A diamond control-flow graph, from `v`'s point of view: `B0` (def at
position 2, live out into both branches), branches `B1` (use at 6) and
`B2` (use at 10) both dead at the join `B3`.  The per-block `liveOut`
bits agree with the live-in sets the dataflow computes (`livein[B1] =
livein[B2] = {v}`, `livein[B3] = {}`), so the backward pass's internal
`live == livein[b]` assertion holds on this input. -/
def diamondBlocks : List PBlock :=
  [⟨[⟨false, false, false⟩, ⟨true, false, false⟩], true⟩,
   ⟨[⟨false, false, false⟩, ⟨false, true, false⟩], false⟩,
   ⟨[⟨false, false, false⟩, ⟨false, true, false⟩], false⟩,
   ⟨[⟨false, false, false⟩], false⟩]

/-- The invariant of the backward pass, at block-start `β` and current
position `q` (every event processed so far sat at a position `≥ q`). -/
structure BInv (st : BuildState) (β q : Nat) : Prop where
  valid : ∀ x ∈ st.ranges, x.start < x.stop
  sep : List.Chain' (fun a b => a.stop < b.start) st.ranges
  usesSorted : List.Chain' (· ≤ ·) st.uses
  coverage : ∀ u ∈ st.uses, ∃ x ∈ st.ranges, x.start ≤ u ∧ u ≤ x.stop
  startLB : ∀ x ∈ st.ranges, β ≤ x.start
  stopLB : ∀ x ∈ st.ranges, q ≤ x.stop
  usesLB : ∀ u ∈ st.uses, q ≤ u
  liveNe : st.live = true → st.ranges ≠ []
  deadHead : st.live = false → ∀ x, st.ranges.head? = some x → q ≤ x.start

/-- The position one past the last block of a layout starting at `pos`
(the value of the `pos` counter after `computePositions`). -/
def endPos (blocks : List PBlock) (pos : Nat) : Nat :=
  match blocks with
  | [] => pos
  | b :: rest => endPos rest (pos + 2 * b.insts.length)


---------------------------------------------------------------------------
-- Theorems.

/-- Arithmetic form of `LiveRange::contains(pos)`. -/
theorem containsPos_iff (r : LiveRange) (q : Nat) :
    r.containsPos q = true ↔ r.start ≤ q ∧ q < r.stop := by
  simp [LiveRange.containsPos]

/-- `n ||| 1` sets the lowest bit: the identity on odd numbers, successor
on even ones. -/
theorem lor_one_eq (n : Nat) : n ||| 1 = if n % 2 = 1 then n else n + 1 := by
  have h1 : (1 : Nat) = Nat.bit true 0 := by simp [Nat.bit_val]
  have hz : ∀ k : Nat, k ||| 0 = k := fun k => Nat.or_zero k
  rcases Nat.even_or_odd n with he | ho
  · obtain ⟨k, hk⟩ := he
    have hn : n = Nat.bit false k := by simp [Nat.bit_val]; omega
    rw [hn, h1, Nat.lor_bit, Bool.false_or, hz]
    simp only [Nat.bit_val, Bool.toNat_true, Bool.toNat_false]
    have h2 : (2 * k + 0) % 2 = 0 := by omega
    rw [h2]
    simp
  · obtain ⟨k, hk⟩ := ho
    have hn : n = Nat.bit true k := by simp [Nat.bit_val]; omega
    rw [hn, h1, Nat.lor_bit, Bool.true_or, hz]
    simp only [Nat.bit_val, Bool.toNat_true]
    have h2 : (2 * k + 1) % 2 = 1 := by omega
    rw [h2]
    simp

/-- A successful `blockFor` lookup returns an index whose block range
contains `pos`. -/
theorem blockFor_containsPos (block_ranges : List LiveRange) (pos b : Nat)
    (h : blockFor block_ranges pos = some b) :
    (block_ranges.getD b ⟨0, 0⟩).containsPos pos = true ∧
    block_ranges.getD b ⟨0, 0⟩ ∈ block_ranges := by
  induction block_ranges generalizing b with
  | nil => simp [blockFor] at h
  | cons r rest ih =>
    by_cases hc : r.containsPos pos
    · simp [blockFor, hc] at h
      subst h
      simp [List.getD, hc]
    · simp [blockFor, hc] at h
      obtain ⟨b', hb', rfl⟩ := h
      have hih := ih b' hb'
      rw [List.getD_cons_succ]
      exact ⟨hih.1, List.mem_cons_of_mem _ hih.2⟩

/-- **C4.** `nearestSplitBefore(pos)` returns `pos` itself when `pos` is
the start of the enclosing block; otherwise it rounds `pos` down to the
greatest odd position `≤ pos`.  Consequently the result is at a block
start or odd, and never greater than `pos`. -/
theorem nearestSplitBefore_spec (block_ranges : List LiveRange) (pos b : Nat)
    (hb : blockFor block_ranges pos = some b) :
    (pos = (block_ranges.getD b ⟨0, 0⟩).start →
      nearestSplitBefore block_ranges pos = pos) ∧
    (pos ≠ (block_ranges.getD b ⟨0, 0⟩).start →
      nearestSplitBefore block_ranges pos =
        (if pos % 2 = 1 then pos else pos - 1) ∧
      nearestSplitBefore block_ranges pos % 2 = 1) ∧
    nearestSplitBefore block_ranges pos ≤ pos ∧
    (nearestSplitBefore block_ranges pos % 2 = 1 ∨
      ∃ r ∈ block_ranges, nearestSplitBefore block_ranges pos = r.start) := by
  obtain ⟨hcont, hmem⟩ := blockFor_containsPos block_ranges pos b hb
  have hstart : (block_ranges.getD b ⟨0, 0⟩).start ≤ pos := by
    simp only [LiveRange.containsPos, Bool.and_eq_true, decide_eq_true_eq,
      ge_iff_le] at hcont
    exact hcont.1
  have hunf : nearestSplitBefore block_ranges pos =
      if pos = (block_ranges.getD b ⟨0, 0⟩).start then pos
      else (pos - 1) ||| 1 := by
    unfold nearestSplitBefore
    rw [hb]
  by_cases heq : pos = (block_ranges.getD b ⟨0, 0⟩).start
  · have hres : nearestSplitBefore block_ranges pos = pos := by
      rw [hunf, if_pos heq]
    refine ⟨fun _ => hres, fun hne => absurd heq hne, le_of_eq hres, Or.inr ?_⟩
    exact ⟨_, hmem, by rw [hres, heq]⟩
  · have hpos : 1 ≤ pos := by omega
    have hres : nearestSplitBefore block_ranges pos = (pos - 1) ||| 1 := by
      rw [hunf, if_neg heq]
    rw [lor_one_eq] at hres
    rcases Nat.even_or_odd pos with he | ho
    · obtain ⟨k, hk⟩ := he
      have hm : (pos - 1) % 2 = 1 := by omega
      rw [if_pos hm] at hres
      have hmod : ¬(pos % 2 = 1) := by omega
      refine ⟨fun hx => absurd hx heq, fun _ => ⟨?_, ?_⟩, by omega, Or.inl ?_⟩
      · rw [hres, if_neg hmod]
      · rw [hres]; exact hm
      · rw [hres]; exact hm
    · obtain ⟨k, hk⟩ := ho
      have hm : ¬((pos - 1) % 2 = 1) := by omega
      rw [if_neg hm] at hres
      have hres2 : nearestSplitBefore block_ranges pos = pos := by
        rw [hres]; omega
      have hmod : pos % 2 = 1 := by omega
      refine ⟨fun hx => absurd hx heq, fun _ => ⟨?_, ?_⟩, by omega, Or.inl ?_⟩
      · rw [hres2, if_pos hmod]
      · rw [hres2]; exact hmod
      · rw [hres2]; exact hmod

/-- Witness for `nearestSplitBefore_spec` at a concrete program: two
blocks of two instructions each; position 3 is inside block 0 but not at
its start, and splits at the odd position 3. -/
theorem nearestSplitBefore_spec_witness :
    nearestSplitBefore (computePositions [2, 2] 0) 3 = 3 ∧
    nearestSplitBefore (computePositions [2, 2] 0) 6 = 5 := by
  have h3 := nearestSplitBefore_spec (computePositions [2, 2] 0) 3 0 (by decide)
  have h6 := nearestSplitBefore_spec (computePositions [2, 2] 0) 6 1 (by decide)
  constructor
  · have := (h3.2.1 (by decide)).1
    simpa using this
  · have := (h6.2.1 (by decide)).1
    simpa using this

/-- **C7.** For every instruction, `spEffect` returns its effect on the
stack pointer: `-8` for `push`, `+8` for `pop`, the literal displacement
for `addqi`/`subqi`/`lea` whose destination is `sp` (the immediate for
`addqi`, the negated immediate for `subqi`, the `lea` displacement), and
`0` for every other instruction; any other instruction that defines `sp`
fails the assertion (modelled as `Except.error`). -/
theorem spEffect_spec (sp : Nat) (inst : Vinstr) :
    (inst = .push → spEffect sp inst = .ok (-8)) ∧
    (inst = .pop → spEffect sp inst = .ok 8) ∧
    (∀ imm s1, inst = .addqi imm s1 sp → s1 = sp →
      spEffect sp inst = .ok imm) ∧
    (∀ imm s1, inst = .subqi imm s1 sp → s1 = sp →
      spEffect sp inst = .ok (-imm)) ∧
    (∀ base index disp, inst = .lea base index disp sp →
      base = some sp → index = none → spEffect sp inst = .ok disp) ∧
    (∀ defsList, inst = .other defsList → sp ∉ defsList →
      spEffect sp inst = .ok 0) ∧
    (∀ imm s1 d, inst = .addqi imm s1 d → d ≠ sp →
      spEffect sp inst = .ok 0) ∧
    (∀ imm s1 d, inst = .subqi imm s1 d → d ≠ sp →
      spEffect sp inst = .ok 0) ∧
    (∀ base index disp d, inst = .lea base index disp d → d ≠ sp →
      spEffect sp inst = .ok 0) ∧
    (∀ defsList, inst = .other defsList → definesSp sp inst →
      spEffect sp inst = .error ()) := by
  refine ⟨?_, ?_, ?_, ?_, ?_, ?_, ?_, ?_, ?_, ?_⟩
  · rintro rfl; rfl
  · rintro rfl; rfl
  · rintro imm s1 rfl rfl; simp [spEffect]
  · rintro imm s1 rfl rfl; simp [spEffect]
  · rintro base index disp rfl rfl rfl; simp [spEffect]
  · rintro defsList rfl h; simp [spEffect, h]
  · rintro imm s1 d rfl h; simp [spEffect, h]
  · rintro imm s1 d rfl h; simp [spEffect, h]
  · rintro base index disp d rfl h; simp [spEffect, h]
  · rintro defsList rfl h
    simp only [definesSp] at h
    simp [spEffect, h]

/-- Witness for `spEffect_spec` at concrete instructions: an `addqi`
targeting `sp` yields its immediate, and an unrelated instruction defining
`sp` is rejected. -/
theorem spEffect_spec_witness :
    spEffect 4 (.addqi 16 4 4) = .ok 16 ∧
    spEffect 4 (.other [4]) = .error () := by
  constructor
  · exact (spEffect_spec 4 (.addqi 16 4 4)).2.2.1 16 4 rfl rfl
  · exact (spEffect_spec 4 (.other [4])).2.2.2.2.2.2.2.2.2 [4] rfl (by
      simp [definesSp])

/-- The narrow search fails exactly when every watermark exceeds the
leader's start. -/
theorem findSlot_eq_none_iff (slots : List Nat) (lstart : Nat) :
    findSlot slots lstart = none ↔ ∀ wm ∈ slots, lstart < wm := by
  induction slots with
  | nil => simp [findSlot]
  | cons wm rest ih =>
    by_cases h : lstart ≥ wm
    · simp only [findSlot]
      rw [if_pos h]
      refine iff_of_false (fun hx => nomatch hx) (fun hall => ?_)
      have := hall wm (List.mem_cons_self wm rest)
      omega
    · simp only [findSlot]
      rw [if_neg h, Option.map_eq_none', ih]
      constructor
      · intro hall wm' hm
        rcases List.mem_cons.mp hm with rfl | hm'
        · omega
        · exact hall wm' hm'
      · intro hall wm' hm'
        exact hall wm' (List.mem_cons_of_mem _ hm')

/-- The wide search fails exactly when every even-aligned slot pair has a
watermark above the leader's start. -/
theorem findSlotWide_eq_none_iff : ∀ (slots : List Nat) (lstart : Nat),
    findSlotWide slots lstart = none ↔
      ∀ i, 2 * i + 1 < slots.length →
        lstart < slots.getD (2 * i) 0 ∨ lstart < slots.getD (2 * i + 1) 0
  | [], lstart => by simp [findSlotWide]
  | [wm], lstart => by simp [findSlotWide]
  | wm0 :: wm1 :: rest, lstart => by
    have ih := findSlotWide_eq_none_iff rest lstart
    have hgd0 : ∀ j, (wm0 :: wm1 :: rest).getD (2 * (j + 1)) 0
        = rest.getD (2 * j) 0 := by
      intro j
      have e : 2 * (j + 1) = 2 * j + 1 + 1 := by ring
      rw [e, List.getD_cons_succ, List.getD_cons_succ]
    have hgd1 : ∀ j, (wm0 :: wm1 :: rest).getD (2 * (j + 1) + 1) 0
        = rest.getD (2 * j + 1) 0 := by
      intro j
      have e : 2 * (j + 1) + 1 = 2 * j + 1 + 1 + 1 := by ring
      rw [e, List.getD_cons_succ, List.getD_cons_succ]
    by_cases h : lstart ≥ wm0 && lstart ≥ wm1
    · simp only [findSlotWide, h, if_true]
      constructor
      · intro hx; cases hx
      · intro hall
        exfalso
        have h01 := hall 0 (by simp)
        simp only [Bool.and_eq_true, decide_eq_true_eq, ge_iff_le] at h
        simp [List.getD] at h01
        omega
    · have h' : (decide (lstart ≥ wm0) && decide (lstart ≥ wm1)) = false := by
        simpa using h
      simp only [findSlotWide, h', Bool.false_eq_true, if_false]
      rw [Option.map_eq_none', ih]
      simp only [Bool.and_eq_true, decide_eq_true_eq, ge_iff_le, not_and_or,
        not_le] at h
      constructor
      · intro hall i hi
        cases i with
        | zero =>
          have e0 : 2 * 0 = 0 := by norm_num
          have e1 : 2 * 0 + 1 = 0 + 1 := by norm_num
          rw [e0, e1, List.getD_cons_zero, List.getD_cons_succ,
            List.getD_cons_zero]
          omega
        | succ j =>
          rw [hgd0 j, hgd1 j]
          apply hall j
          simp only [List.length_cons] at hi
          omega
      · intro hall j hj
        have hfull := hall (j + 1) (by simp; omega)
        rw [hgd0 j, hgd1 j] at hfull
        exact hfull

/-- An `assignSpill` failure is always the `LinearScan_TooManySpills`
punt. -/
theorem assignSpill_error_eq (st : SpillState) (leaderSlot : Option Nat)
    (leaderStart : Nat) (wide : Bool) (e : Punt)
    (h : assignSpill st leaderSlot leaderStart wide = .error e) :
    e = .LinearScan_TooManySpills := by
  rcases leaderSlot with _ | s
  · unfold assignSpill at h
    rcases hfind : (if wide then findSlotWide st.spill_slots leaderStart
        else findSlot st.spill_slots leaderStart) with _ | v
    · rw [hfind] at h
      injection h with h
      exact h.symm
    · rw [hfind] at h
      cases h
  · simp [assignSpill] at h

/-- **C5.** Both capacity failures abort allocation by punting rather than
being handled locally: `assignSpill` punts with `LinearScan_TooManySpills`
exactly when the chain has no slot yet and the scan over all spill slots
(pairs of contiguous slots for a wide interval) finds no watermark
permitting reuse; `spill` punts with `RegSpill` exactly when the interval
has a register-requiring use no later than its end and
`nearestSplitBefore` of that use is at or before the interval's start. -/
theorem capacity_punt_spec (block_ranges : List LiveRange) (st : SpillState)
    (ivl : Interval) (leaderSlot : Option Nat) (leaderStart : Nat) :
    (spill block_ranges st ivl leaderSlot leaderStart = .error .RegSpill ↔
      firstUse ivl.uses ≤ ivl.stop ∧
      nearestSplitBefore block_ranges (firstUse ivl.uses) ≤ ivl.start) ∧
    (assignSpill st leaderSlot leaderStart ivl.wide =
        .error .LinearScan_TooManySpills ↔
      leaderSlot = none ∧
      (ivl.wide = false → ∀ wm ∈ st.spill_slots, leaderStart < wm) ∧
      (ivl.wide = true → ∀ i, 2 * i + 1 < st.spill_slots.length →
        leaderStart < st.spill_slots.getD (2 * i) 0 ∨
        leaderStart < st.spill_slots.getD (2 * i + 1) 0)) := by
  constructor
  · have hnoreg : ∀ (first : Interval) (second : Option Interval),
        (if ivl.constant then
          Except.ok (st, { first with reg := none }, second)
        else
          match assignSpill st leaderSlot leaderStart ivl.wide with
          | .error e => .error e
          | .ok (st', slot) =>
            .ok (st', { first with reg := none, slot := some slot }, second))
          ≠ (Except.error Punt.RegSpill
              : Except Punt (SpillState × Interval × Option Interval)) := by
      intro first second
      by_cases hc : ivl.constant
      · rw [if_pos hc]
        intro hx
        cases hx
      · rw [if_neg hc]
        cases hval : assignSpill st leaderSlot leaderStart ivl.wide with
        | error e =>
          have he := assignSpill_error_eq st leaderSlot leaderStart ivl.wide e
            hval
          subst he
          intro hx
          cases hx
        | ok out =>
          intro hx
          cases hx
    by_cases hfu : firstUse ivl.uses ≤ ivl.stop
    · by_cases hsp :
          nearestSplitBefore block_ranges (firstUse ivl.uses) ≤ ivl.start
      · simp [spill, hfu, hsp]
      · simp only [spill, if_pos hfu, if_neg hsp]
        constructor
        · intro hx
          exact absurd hx (hnoreg _ _)
        · intro hx
          exact absurd hx.2 hsp
    · simp only [spill, if_neg hfu]
      constructor
      · intro hx
        exact absurd hx (hnoreg _ _)
      · intro hx
        exact absurd hx.1 hfu
  · rcases leaderSlot with _ | s
    · cases hw : ivl.wide with
      | false =>
        simp only [assignSpill, Bool.false_eq_true, if_false]
        cases hfind : findSlot st.spill_slots leaderStart with
        | none =>
          rw [findSlot_eq_none_iff] at hfind
          exact iff_of_true rfl
            ⟨by trivial, fun _ => hfind, fun hcontr => nomatch hcontr⟩
        | some v =>
          have hne : ¬(findSlot st.spill_slots leaderStart = none) := by
            rw [hfind]
            exact fun hx => by cases hx
          rw [findSlot_eq_none_iff] at hne
          refine iff_of_false (fun hx => by cases hx) (fun hrhs => ?_)
          exact hne (hrhs.2.1 (by trivial))
      | true =>
        simp only [assignSpill, if_true]
        cases hfind : findSlotWide st.spill_slots leaderStart with
        | none =>
          rw [findSlotWide_eq_none_iff] at hfind
          refine iff_of_true rfl ⟨by trivial, ?_, ?_⟩
          · intro hcontr
            exact absurd hcontr (by decide)
          · intro _
            exact hfind
        | some v =>
          have hne : ¬(findSlotWide st.spill_slots leaderStart = none) := by
            rw [hfind]
            exact fun hx => by cases hx
          rw [findSlotWide_eq_none_iff] at hne
          refine iff_of_false (fun hx => by cases hx) (fun hrhs => ?_)
          exact hne (hrhs.2.2 (by trivial))
    · refine iff_of_false (fun hx => ?_) (fun hrhs => ?_)
      · simp [assignSpill] at hx
      · cases hrhs.1

/-- **C9.** `assignReg` invoked on a non-fixed interval with an empty use
list never installs the offered register: `reg` becomes `InvalidReg`
(`none`), the active list is untouched, and unless the interval is a
constant it is given a spill slot (or allocation aborts out of slots). -/
theorem assignReg_spec (st : SpillState) (active : List Interval)
    (ivl : Interval) (r : Nat) (leaderSlot : Option Nat) (leaderStart : Nat)
    (hfx : ivl.fixed = false) (hu : ivl.uses = []) :
    (∀ st' ivl' active',
      assignReg st active ivl r leaderSlot leaderStart =
        .ok (st', ivl', active') →
      ivl'.reg = none ∧ active' = active ∧
      (ivl.constant = false → ivl'.slot.isSome = true)) ∧
    (∀ e, assignReg st active ivl r leaderSlot leaderStart = .error e →
      e = .LinearScan_TooManySpills) := by
  have hcond : (¬ivl.fixed && ivl.uses.isEmpty) = true := by
    rw [hfx, hu]
    rfl
  constructor
  · intro st' ivl' active' hok
    simp only [assignReg, hcond, if_true] at hok
    by_cases hc : ivl.constant
    · rw [if_pos hc] at hok
      injection hok with h
      have h2 : ({ ivl with reg := none } : Interval) = ivl' :=
        congrArg (fun x => x.2.1) h
      have h3 : active = active' := congrArg (fun x => x.2.2) h
      refine ⟨by rw [← h2], h3.symm, fun hcf => ?_⟩
      rw [hc] at hcf
      cases hcf
    · rw [if_neg hc] at hok
      cases hval : assignSpill st leaderSlot leaderStart ivl.wide with
      | error e =>
        rw [hval] at hok
        cases hok
      | ok out =>
        rw [hval] at hok
        injection hok with h
        have h2 : ({ ivl with reg := none, slot := some out.2 } : Interval)
            = ivl' := congrArg (fun x => x.2.1) h
        have h3 : active = active' := congrArg (fun x => x.2.2) h
        exact ⟨by rw [← h2], h3.symm, fun _ => by rw [← h2]; rfl⟩
  · intro e herr
    simp only [assignReg, hcond, if_true] at herr
    by_cases hc : ivl.constant
    · rw [if_pos hc] at herr
      cases herr
    · rw [if_neg hc] at herr
      cases hval : assignSpill st leaderSlot leaderStart ivl.wide with
      | error e2 =>
        rw [hval] at herr
        injection herr with h
        rw [← h]
        exact assignSpill_error_eq st leaderSlot leaderStart ivl.wide e2 hval
      | ok out =>
        rw [hval] at herr
        cases herr

/-- Witness for `assignReg_spec`: a one-slot state, a childless non-fixed
interval with no uses; it ends spilled to slot 0 and off the active
list. -/
theorem assignReg_spec_witness :
    ({ parent := true, ranges := [⟨0, 2⟩], reg := none,
       slot := some 0 : Interval }).reg = none ∧
    ({ parent := true, ranges := [⟨0, 2⟩], reg := none,
       slot := some 0 : Interval }).slot.isSome = true := by
  have h := (assignReg_spec ⟨[0], 0, 0⟩ [] { parent := true, ranges := [⟨0, 2⟩] }
      5 none 0 rfl rfl).1 ⟨[kMaxPos], 1, 1⟩
      { parent := true, ranges := [⟨0, 2⟩], reg := none, slot := some 0 } []
      (by rfl)
  exact ⟨h.1, h.2.2 rfl⟩

---------------------------------------------------------------------------
-- covers / usedAt / childAt (C10).
/-- On a use list sorted by position, dropping `findUse p` entries exposes
a use at `p` whenever one exists. -/
theorem findUse_head_of_mem (us : List Use) (p : Nat)
    (hsort : us.Pairwise (fun a b => a.pos ≤ b.pos))
    (hmem : ∃ u ∈ us, u.pos = p) :
    ∃ u, (us.drop (findUse us p)).head? = some u ∧ u.pos = p := by
  induction us with
  | nil => simp at hmem
  | cons u rest ih =>
    by_cases hle : p ≤ u.pos
    · obtain ⟨u', hu', hp⟩ := hmem
      rcases List.mem_cons.mp hu' with rfl | hmem'
      · exact ⟨u', by simp [findUse, hle], hp⟩
      · have h1 : u.pos ≤ u'.pos := (List.pairwise_cons.mp hsort).1 u' hmem'
        have h2 : u.pos = p := le_antisymm (hp ▸ h1) hle
        exact ⟨u, by simp [findUse, hle], h2⟩
    · obtain ⟨u', hu', hp⟩ := hmem
      rcases List.mem_cons.mp hu' with rfl | hmem'
      · omega
      · have hrec := ih (List.pairwise_cons.mp hsort).2 ⟨u', hmem', hp⟩
        simpa [findUse, hle] using hrec

/-- **C10.** Ranges are half-open, so `covers(end())` is false for every
interval; yet `usedAt` accepts `pos = end()`: a use recorded exactly at
the interval's end makes `usedAt(end())` true.  Consequently `childAt`,
which selects by `usedAt`, can return a child interval that does not
cover the position (shown at a concrete interval). -/
theorem covers_usedAt_spec :
    (∀ ivl : Interval, ivl.covers ivl.stop = false) ∧
    (∀ ivl : Interval, ivl.start ≤ ivl.stop →
      ivl.uses.Pairwise (fun a b => a.pos ≤ b.pos) →
      (∃ u ∈ ivl.uses, u.pos = ivl.stop) →
      ivl.usedAt ivl.stop = true) ∧
    (childAt [{ ranges := [⟨0, 4⟩], uses := [⟨.Any, 4, none⟩] }] 4 =
        some { ranges := [⟨0, 4⟩], uses := [⟨.Any, 4, none⟩] } ∧
      Interval.covers { ranges := [⟨0, 4⟩], uses := [⟨.Any, 4, none⟩] } 4 =
        false) := by
  refine ⟨?_, ?_, by decide⟩
  · intro ivl
    simp [Interval.covers]
  · intro ivl hss hsort hmem
    obtain ⟨u, hhead, hup⟩ := findUse_head_of_mem ivl.uses ivl.stop hsort hmem
    simp only [Interval.usedAt]
    rw [if_neg (by omega : ¬(ivl.stop < ivl.start ∨ ivl.stop > ivl.stop)),
      hhead]
    simp [hup]

/-- Witness for `covers_usedAt_spec`: the concrete interval
`ranges = [[0,4))`, one use at position 4 = `end()`. -/
theorem covers_usedAt_spec_witness :
    Interval.usedAt { ranges := [⟨0, 4⟩], uses := [⟨.Any, 4, none⟩] } 4 =
      true ∧
    Interval.covers { ranges := [⟨0, 4⟩], uses := [⟨.Any, 4, none⟩] } 4 =
      false := by
  constructor
  · have h := covers_usedAt_spec.2.1
      { ranges := [⟨0, 4⟩], uses := [⟨.Any, 4, none⟩] }
      (by decide) (by simp) ⟨⟨.Any, 4, none⟩, by simp, rfl⟩
    exact h
  · exact covers_usedAt_spec.1 { ranges := [⟨0, 4⟩], uses := [⟨.Any, 4, none⟩] }

/-- **C8.** The spill plan built by `resolveSplits` holds exactly one
entry per chain whose root has been assigned a spill slot, placed at
`def_pos + 1` and keyed by the root's assigned register; chains whose
root has no slot record no spill store. -/
theorem resolveSplits_spills_spec (block_ranges : List LiveRange)
    (intervals : List (Option (List Interval))) :
    (resolveSplits block_ranges intervals).1 =
      intervals.filterMap (fun oc =>
        match oc with
        | none => none
        | some chain =>
          match chain.head? with
          | none => none
          | some root =>
            if root.slot.isSome then some (root.def_pos + 1, root.reg, root)
            else none) ∧
    ∀ e ∈ (resolveSplits block_ranges intervals).1,
      e.2.2.slot.isSome = true ∧ e.1 = e.2.2.def_pos + 1 ∧
      e.2.1 = e.2.2.reg := by
  induction intervals with
  | nil => exact ⟨rfl, by simp [resolveSplits]⟩
  | cons oc rest ih =>
    rcases oc with _ | chain
    · simpa [resolveSplits] using ih
    · rcases hhead : chain.head? with _ | root
      · constructor
        · simp [resolveSplits, hhead, ih.1]
        · intro e he
          simp only [resolveSplits, hhead] at he
          simp only [List.nil_append] at he
          exact ih.2 e he
      · by_cases hslot : root.slot.isSome
        · constructor
          · simp [resolveSplits, hhead, hslot, insertSpill, ih.1]
          · intro e he
            simp only [resolveSplits, hhead, hslot, if_true, insertSpill,
              List.nil_append, List.cons_append, List.mem_cons] at he
            rcases he with rfl | he
            · exact ⟨hslot, rfl, rfl⟩
            · exact ih.2 e he
        · constructor
          · simp [resolveSplits, hhead, hslot, ih.1]
          · intro e he
            simp only [resolveSplits, hhead, hslot, if_false,
              List.nil_append] at he
            exact ih.2 e he

/-- Every range strictly before index `findRange rs pos` ends at or
before `pos`. -/
theorem findRange_take_stop_le (rs : List LiveRange) (pos : Nat) :
    ∀ r ∈ rs.take (findRange rs pos), r.stop ≤ pos := by
  induction rs with
  | nil => simp
  | cons r0 rest ih =>
    by_cases h : pos < r0.stop
    · simp [findRange, h]
    · simp only [findRange, if_neg h, List.take_succ_cons, List.mem_cons]
      rintro r' (rfl | hm)
      · omega
      · exact ih r' hm

/-- The range at index `findRange rs pos` (when the tail is non-empty)
ends after `pos`. -/
theorem findRange_drop_head (rs : List LiveRange) (pos : Nat)
    (r : LiveRange) (rest : List LiveRange)
    (h : rs.drop (findRange rs pos) = r :: rest) : pos < r.stop := by
  induction rs with
  | nil => simp at h
  | cons r0 rest0 ih =>
    by_cases h0 : pos < r0.stop
    · simp only [findRange, if_pos h0, List.drop_zero, List.cons.injEq] at h
      obtain ⟨rfl, -⟩ := h
      exact h0
    · simp only [findRange, if_neg h0, List.drop_succ_cons] at h
      exact ih h

/-- Every use strictly before index `findUse us e` sits at a position
`< e`. -/
theorem findUse_take_lt (us : List Use) (e : Nat) :
    ∀ u ∈ us.take (findUse us e), u.pos < e := by
  induction us with
  | nil => simp
  | cons u rest ih =>
    by_cases h : e ≤ u.pos
    · simp [findUse, h]
    · simp only [findUse, if_neg h, List.take_succ_cons, List.mem_cons]
      rintro u' (rfl | hm)
      · omega
      · exact ih u' hm

/-- On a list sorted by position, `takeWhile`/`dropWhile` with a predicate
downward-closed in the position agree with `filter`. -/
theorem sorted_takeWhile_dropWhile (us : List Use) (p : Use → Bool)
    (hmono : ∀ a b : Use, a.pos ≤ b.pos → p b = true → p a = true)
    (hsort : us.Pairwise (fun a b => a.pos ≤ b.pos)) :
    us.takeWhile p = us.filter p ∧
    us.dropWhile p = us.filter (fun u => !(p u)) := by
  induction us with
  | nil => simp
  | cons u rest ih =>
    obtain ⟨hhead, htail⟩ := List.pairwise_cons.mp hsort
    obtain ⟨iht, ihd⟩ := ih htail
    cases hp : p u with
    | true =>
      simp [List.takeWhile_cons, List.dropWhile_cons, List.filter_cons, hp,
        iht, ihd]
    | false =>
      have hall : ∀ v ∈ rest, p v = false := by
        intro v hv
        cases hpv : p v with
        | false => rfl
        | true =>
          exact absurd (hmono u v (hhead v hv) hpv) (by simp [hp])
      constructor
      · rw [List.takeWhile_cons, if_neg (by simp [hp]), List.filter_cons,
          if_neg (by simp [hp])]
        symm
        rw [List.filter_eq_nil_iff]
        intro a ha
        simp [hall a ha]
      · rw [List.dropWhile_cons, if_neg (by simp [hp]), List.filter_cons,
          if_pos (by simp [hp])]
        congr 1
        symm
        rw [List.filter_eq_self]
        intro a ha
        simp [hall a ha]

/-- The use division of `split`: given sorted uses and
`firstEnd ≤ childStart`, the parts are the `filter`s the amended claim
describes (`≤ firstEnd` / `> firstEnd` when keeping uses, `< childStart`
/ `≥ childStart` otherwise). -/
theorem splitUses_filter (us : List Use) (e c : Nat) (keep : Bool)
    (hsort : us.Pairwise (fun a b => a.pos ≤ b.pos)) (hec : e ≤ c) :
    (keep = true →
      (splitUses us e c keep).1 = us.filter (fun u => decide (u.pos ≤ e)) ∧
      (splitUses us e c keep).2 = us.filter (fun u => decide (e < u.pos))) ∧
    (keep = false →
      (splitUses us e c keep).1 = us.filter (fun u => decide (u.pos < c)) ∧
      (splitUses us e c keep).2 = us.filter (fun u => decide (c ≤ u.pos))) := by
  have htake := findUse_take_lt us e
  have htail : (us.drop (findUse us e)).Pairwise
      (fun a b => a.pos ≤ b.pos) :=
    hsort.sublist (List.drop_sublist _ _)
  have hsplit := List.take_append_drop (findUse us e) us
  constructor
  · rintro rfl
    have hmono : ∀ a b : Use, a.pos ≤ b.pos →
        (fun u : Use => decide (u.pos ≤ e)) b = true →
        (fun u : Use => decide (u.pos ≤ e)) a = true := by
      intro a b hab hb
      simp only [decide_eq_true_eq] at hb ⊢
      omega
    obtain ⟨ht, hd⟩ := sorted_takeWhile_dropWhile _ _ hmono htail
    have hkeepPred : (if true = true then fun u : Use => decide (u.pos ≤ e)
        else fun u : Use => decide (u.pos < c)) =
        fun u : Use => decide (u.pos ≤ e) := by simp
    constructor
    · show us.take (findUse us e) ++ _ = _
      rw [hkeepPred, ht]
      conv_rhs => rw [← hsplit]
      rw [List.filter_append]
      congr 1
      symm
      rw [List.filter_eq_self]
      intro a ha
      have := htake a ha
      simp only [decide_eq_true_eq]
      omega
    · show (us.drop (findUse us e)).dropWhile _ = _
      rw [hkeepPred, hd]
      conv_rhs => rw [← hsplit]
      rw [List.filter_append]
      have h0 : (us.take (findUse us e)).filter
          (fun u => decide (e < u.pos)) = [] := by
        rw [List.filter_eq_nil_iff]
        intro a ha
        have := htake a ha
        simp only [decide_eq_true_eq, not_lt]
        omega
      rw [h0, List.nil_append]
      apply List.filter_congr
      intro x _
      by_cases hx : x.pos ≤ e
      · simp [hx]
      · simp at hx
        simp [hx]
  · rintro rfl
    have hmono : ∀ a b : Use, a.pos ≤ b.pos →
        (fun u : Use => decide (u.pos < c)) b = true →
        (fun u : Use => decide (u.pos < c)) a = true := by
      intro a b hab hb
      simp only [decide_eq_true_eq] at hb ⊢
      omega
    obtain ⟨ht, hd⟩ := sorted_takeWhile_dropWhile _ _ hmono htail
    have hkeepPred : (if false = true then fun u : Use => decide (u.pos ≤ e)
        else fun u : Use => decide (u.pos < c)) =
        fun u : Use => decide (u.pos < c) := by simp
    constructor
    · show us.take (findUse us e) ++ _ = _
      rw [hkeepPred, ht]
      conv_rhs => rw [← hsplit]
      rw [List.filter_append]
      congr 1
      symm
      rw [List.filter_eq_self]
      intro a ha
      have := htake a ha
      simp only [decide_eq_true_eq]
      omega
    · show (us.drop (findUse us e)).dropWhile _ = _
      rw [hkeepPred, hd]
      conv_rhs => rw [← hsplit]
      rw [List.filter_append]
      have h0 : (us.take (findUse us e)).filter
          (fun u => decide (c ≤ u.pos)) = [] := by
        rw [List.filter_eq_nil_iff]
        intro a ha
        have := htake a ha
        simp only [decide_eq_true_eq, not_le]
        omega
      rw [h0, List.nil_append]
      apply List.filter_congr
      intro x _
      by_cases hx : x.pos < c
      · simp [hx]
      · simp at hx
        simp [hx]

/-- The range division of `split` on a well-formed interval: both parts
are non-empty, the child covers exactly the positions of the original at
`≥ pos`, the first part exactly those at `< pos`; the first part ends at
or before `pos` and the child starts at or after `pos`. -/
theorem splitRanges_spec (rs : List LiveRange) (pos : Nat) (r0 : LiveRange)
    (hsh : rs.head? = some r0)
    (hpw : rs.Pairwise (fun a b => a.stop < b.start))
    (h1 : r0.start < pos)
    (h2 : ∀ rl, rs.getLast? = some rl → pos < rl.stop) :
    (splitRanges rs pos).1 ≠ [] ∧
    (splitRanges rs pos).2 ≠ [] ∧
    (∀ q, coveredBy (splitRanges rs pos).2 q ↔ coveredBy rs q ∧ pos ≤ q) ∧
    (∀ q, coveredBy (splitRanges rs pos).1 q ↔ coveredBy rs q ∧ q < pos) ∧
    (∀ e, (splitRanges rs pos).1.getLast? = some e → e.stop ≤ pos) ∧
    (∀ c, (splitRanges rs pos).2.head? = some c → pos ≤ c.start) := by
  have hrsne : rs ≠ [] := by
    intro h
    rw [h] at hsh
    cases hsh
  obtain ⟨rl, hrl⟩ := Option.isSome_iff_exists.mp
    (List.getLast?_isSome.mpr hrsne)
  have hpl : pos < rl.stop := h2 rl hrl
  have hdropne : rs.drop (findRange rs pos) ≠ [] := by
    intro hd
    have hkge : rs.length ≤ findRange rs pos := by
      by_contra hlt
      push_neg at hlt
      rw [List.drop_eq_nil_iff] at hd
      omega
    have htk : rs.take (findRange rs pos) = rs := List.take_of_length_le hkge
    have hmem : rl ∈ rs.take (findRange rs pos) := by
      rw [htk]
      exact List.mem_of_mem_getLast? (by rw [hrl]; rfl)
    have := findRange_take_stop_le rs pos rl hmem
    omega
  obtain ⟨r1, rest, hdrop⟩ := List.exists_cons_of_ne_nil hdropne
  have hr1stop : pos < r1.stop := findRange_drop_head rs pos r1 rest hdrop
  have hsplitlist : rs.take (findRange rs pos) ++ r1 :: rest = rs := by
    rw [← hdrop]
    exact List.take_append_drop _ rs
  have hmemTake := findRange_take_stop_le rs pos
  have hpw2 : (rs.take (findRange rs pos) ++ r1 :: rest).Pairwise
      (fun a b => a.stop < b.start) := by
    rw [hsplitlist]
    exact hpw
  rw [List.pairwise_append] at hpw2
  obtain ⟨-, hpwDrop, -⟩ := hpw2
  obtain ⟨hr1rest, -⟩ := List.pairwise_cons.mp hpwDrop
  have hmemRest : ∀ r ∈ rest, pos < r.start := by
    intro r hr
    have := hr1rest r hr
    omega
  have hres : splitRanges rs pos =
      (if pos > r1.start then
        (rs.take (findRange rs pos) ++ [LiveRange.mk r1.start pos],
         LiveRange.mk pos r1.stop :: rest)
      else (rs.take (findRange rs pos), r1 :: rest)) := by
    simp only [splitRanges]
    rw [hdrop]
  by_cases hst : pos > r1.start
  · rw [hres, if_pos hst]
    refine ⟨by simp, by simp, ?_, ?_, ?_, ?_⟩
    · intro q
      constructor
      · rintro ⟨r, hr, hc⟩
        rw [containsPos_iff] at hc
        rcases List.mem_cons.mp hr with rfl | hr'
        · dsimp at hc
          refine ⟨⟨r1, ?_, ?_⟩, hc.1⟩
          · rw [← hsplitlist]
            exact List.mem_append_right _ (List.mem_cons_self _ _)
          · rw [containsPos_iff]
            omega
        · refine ⟨⟨r, ?_, ?_⟩, ?_⟩
          · rw [← hsplitlist]
            exact List.mem_append_right _ (List.mem_cons_of_mem _ hr')
          · rw [containsPos_iff]
            exact hc
          · have := hmemRest r hr'
            omega
      · rintro ⟨⟨r, hr, hc⟩, hq⟩
        rw [containsPos_iff] at hc
        rw [← hsplitlist] at hr
        rcases List.mem_append.mp hr with hr' | hr'
        · have := hmemTake r hr'
          omega
        · rcases List.mem_cons.mp hr' with rfl | hr''
          · refine ⟨LiveRange.mk pos r.stop, List.mem_cons_self _ _, ?_⟩
            rw [containsPos_iff]
            dsimp
            omega
          · refine ⟨r, List.mem_cons_of_mem _ hr'', ?_⟩
            rw [containsPos_iff]
            exact hc
    · intro q
      constructor
      · rintro ⟨r, hr, hc⟩
        rw [containsPos_iff] at hc
        rcases List.mem_append.mp hr with hr' | hr'
        · have := hmemTake r hr'
          refine ⟨⟨r, ?_, ?_⟩, by omega⟩
          · rw [← hsplitlist]
            exact List.mem_append_left _ hr'
          · rw [containsPos_iff]
            exact hc
        · rcases List.mem_singleton.mp hr' with rfl
          dsimp at hc
          refine ⟨⟨r1, ?_, ?_⟩, by omega⟩
          · rw [← hsplitlist]
            exact List.mem_append_right _ (List.mem_cons_self _ _)
          · rw [containsPos_iff]
            omega
      · rintro ⟨⟨r, hr, hc⟩, hq⟩
        rw [containsPos_iff] at hc
        rw [← hsplitlist] at hr
        rcases List.mem_append.mp hr with hr' | hr'
        · refine ⟨r, List.mem_append_left _ hr', ?_⟩
          rw [containsPos_iff]
          exact hc
        · rcases List.mem_cons.mp hr' with rfl | hr''
          · refine ⟨LiveRange.mk r.start pos,
              List.mem_append_right _ (List.mem_singleton_self _), ?_⟩
            rw [containsPos_iff]
            dsimp
            omega
          · have := hmemRest r hr''
            omega
    · intro e he
      rw [List.getLast?_concat] at he
      injection he with he
      rw [← he]
    · intro c hc
      simp only [List.head?_cons, Option.some.injEq] at hc
      rw [← hc]
  · push_neg at hst
    have hk1 : rs.take (findRange rs pos) ≠ [] := by
      intro htk
      rcases List.take_eq_nil_iff.mp htk with hk0 | hrsnil
      · rw [hk0, List.drop_zero] at hdrop
        rw [hdrop] at hsh
        simp only [List.head?_cons, Option.some.injEq] at hsh
        rw [hsh] at hst
        omega
      · exact hrsne hrsnil
    rw [hres, if_neg (by omega)]
    refine ⟨hk1, by simp, ?_, ?_, ?_, ?_⟩
    · intro q
      constructor
      · rintro ⟨r, hr, hc⟩
        rw [containsPos_iff] at hc
        rcases List.mem_cons.mp hr with rfl | hr'
        · refine ⟨⟨r, ?_, ?_⟩, by omega⟩
          · rw [← hsplitlist]
            exact List.mem_append_right _ (List.mem_cons_self _ _)
          · rw [containsPos_iff]
            exact hc
        · have := hmemRest r hr'
          refine ⟨⟨r, ?_, ?_⟩, by omega⟩
          · rw [← hsplitlist]
            exact List.mem_append_right _ (List.mem_cons_of_mem _ hr')
          · rw [containsPos_iff]
            exact hc
      · rintro ⟨⟨r, hr, hc⟩, hq⟩
        rw [containsPos_iff] at hc
        rw [← hsplitlist] at hr
        rcases List.mem_append.mp hr with hr' | hr'
        · have := hmemTake r hr'
          omega
        · exact ⟨r, hr', by rw [containsPos_iff]; exact hc⟩
    · intro q
      constructor
      · rintro ⟨r, hr, hc⟩
        rw [containsPos_iff] at hc
        have := hmemTake r hr
        refine ⟨⟨r, ?_, ?_⟩, by omega⟩
        · rw [← hsplitlist]
          exact List.mem_append_left _ hr
        · rw [containsPos_iff]
          exact hc
      · rintro ⟨⟨r, hr, hc⟩, hq⟩
        rw [containsPos_iff] at hc
        rw [← hsplitlist] at hr
        rcases List.mem_append.mp hr with hr' | hr'
        · exact ⟨r, hr', by rw [containsPos_iff]; exact hc⟩
        · rcases List.mem_cons.mp hr' with rfl | hr''
          · omega
          · have := hmemRest r hr''
            omega
    · intro e he
      have := hmemTake e (List.mem_of_mem_getLast? (by rw [he]; rfl))
      exact this
    · intro c hc
      simp only [List.head?_cons, Option.some.injEq] at hc
      rw [← hc]
      exact hst

/-- **C2 counterexample.**  The well-formed interval with ranges
`[[0,4), [6,8))` and a single use at position 4 (the end of a non-final
range), split at `pos = 4` with `keep_uses = false`: the claim says the
child receives the uses at positions `≥ 4`, so the use at 4 should move;
in fact `split` keeps it with the first part (the child starts at 6 in
the lifetime hole, and uses below the child's start stay behind). -/
theorem split_claim_counterexample :
    Interval.start
      { ranges := [⟨0, 4⟩, ⟨6, 8⟩], uses := [⟨.Any, 4, none⟩] } < 4 ∧
    4 < Interval.stop
      { ranges := [⟨0, 4⟩, ⟨6, 8⟩], uses := [⟨.Any, 4, none⟩] } ∧
    ¬((Interval.split
        { ranges := [⟨0, 4⟩, ⟨6, 8⟩], uses := [⟨.Any, 4, none⟩] }
        4 false).2.uses =
      List.filter (fun u => decide (4 ≤ u.pos))
        [({ kind := .Any, pos := 4, hint := none } : Use)]) := by decide

/-- **C2 (amended).** For a well-formed interval (non-empty, ascending,
strictly-separated ranges; strictly ascending use positions) and
`start() < pos < end()`, `split(pos, keep_uses)` cuts the ranges at
`pos`: the child covers exactly the original positions `≥ pos` (a
straddling range is divided), the first part exactly those `< pos`, and
both parts are non-empty.  The child receives the uses strictly past the
first part's end when `keep_uses`, and otherwise the uses at or past the
*child's start* — not merely `≥ pos`: a use lying in the hole at the
first part's end stays with the first part. -/
theorem split_spec (ivl : Interval) (pos : Nat) (keep_uses : Bool)
    (hpw : ivl.ranges.Pairwise (fun a b => a.stop < b.start))
    (hu : ivl.uses.Pairwise (fun a b => a.pos < b.pos))
    (h1 : ivl.start < pos) (h2 : pos < ivl.stop) :
    (ivl.split pos keep_uses).1.ranges ≠ [] ∧
    (ivl.split pos keep_uses).2.ranges ≠ [] ∧
    (∀ q, coveredBy (ivl.split pos keep_uses).2.ranges q ↔
      coveredBy ivl.ranges q ∧ pos ≤ q) ∧
    (∀ q, coveredBy (ivl.split pos keep_uses).1.ranges q ↔
      coveredBy ivl.ranges q ∧ q < pos) ∧
    (keep_uses = true →
      (ivl.split pos keep_uses).1.uses = ivl.uses.filter
        (fun u => decide (u.pos ≤ (ivl.split pos keep_uses).1.stop)) ∧
      (ivl.split pos keep_uses).2.uses = ivl.uses.filter
        (fun u => decide ((ivl.split pos keep_uses).1.stop < u.pos))) ∧
    (keep_uses = false →
      (ivl.split pos keep_uses).1.uses = ivl.uses.filter
        (fun u => decide (u.pos < (ivl.split pos keep_uses).2.start)) ∧
      (ivl.split pos keep_uses).2.uses = ivl.uses.filter
        (fun u => decide ((ivl.split pos keep_uses).2.start ≤ u.pos))) := by
  obtain ⟨r0, rtail, hcons⟩ : ∃ r0 rtail, ivl.ranges = r0 :: rtail := by
    cases hr : ivl.ranges with
    | nil =>
      exfalso
      have : ivl.stop = 0 := by simp [Interval.stop, hr]
      omega
    | cons a l => exact ⟨a, l, rfl⟩
  have hsh : ivl.ranges.head? = some r0 := by rw [hcons]; rfl
  have hr0 : r0.start = ivl.start := by
    rw [Interval.start, hcons]
  have h2' : ∀ rl, ivl.ranges.getLast? = some rl → pos < rl.stop := by
    intro rl hrl
    have : ivl.stop = rl.stop := by simp [Interval.stop, hrl]
    omega
  obtain ⟨hf_ne, hc_ne, hcov2, hcov1, hlast, hhead⟩ :=
    splitRanges_spec ivl.ranges pos r0 hsh hpw (by omega) h2'
  have hfr : (ivl.split pos keep_uses).1.ranges =
      (splitRanges ivl.ranges pos).1 := rfl
  have hcr : (ivl.split pos keep_uses).2.ranges =
      (splitRanges ivl.ranges pos).2 := rfl
  obtain ⟨e, he⟩ : ∃ e, (splitRanges ivl.ranges pos).1.getLast? = some e :=
    Option.isSome_iff_exists.mp (List.getLast?_isSome.mpr hf_ne)
  obtain ⟨c, crest, hcc⟩ :
      ∃ c crest, (splitRanges ivl.ranges pos).2 = c :: crest :=
    List.exists_cons_of_ne_nil hc_ne
  have hestop : e.stop ≤ pos := hlast e he
  have hcstart : pos ≤ c.start := hhead c (by rw [hcc]; rfl)
  have hstop1 : (ivl.split pos keep_uses).1.stop = e.stop := by
    simp only [Interval.stop, Interval.split, he, hcc]
  have hstart2 : (ivl.split pos keep_uses).2.start = c.start := by
    simp only [Interval.start, Interval.split, he, hcc]
  have hfu : (ivl.split pos keep_uses).1.uses =
      (splitUses ivl.uses e.stop c.start keep_uses).1 := by
    simp only [Interval.split, he, hcc]
  have hcu : (ivl.split pos keep_uses).2.uses =
      (splitUses ivl.uses e.stop c.start keep_uses).2 := by
    simp only [Interval.split, he, hcc]
  have hSU := splitUses_filter ivl.uses e.stop c.start keep_uses
    (hu.imp le_of_lt) (le_trans hestop hcstart)
  refine ⟨by rw [hfr]; exact hf_ne, by rw [hcr]; exact hc_ne,
    by rw [hcr]; exact hcov2, by rw [hfr]; exact hcov1, ?_, ?_⟩
  · intro hk
    obtain ⟨hk1, hk2⟩ := hSU.1 hk
    constructor
    · rw [hfu, hstop1, hk1]
    · rw [hcu, hstop1, hk2]
  · intro hk
    obtain ⟨hk1, hk2⟩ := hSU.2 hk
    constructor
    · rw [hfu, hstart2, hk1]
    · rw [hcu, hstart2, hk2]

/-- Witness for `split_spec`: splitting `[[0,8))` with uses at 2 and 6 at
position 4 moves exactly the use at 6 to the child, which covers 6. -/
theorem split_spec_witness :
    coveredBy (Interval.split { ranges := [⟨0, 8⟩], uses := [⟨.Any, 2, none⟩, ⟨.Any, 6, none⟩] } 4 false).2.ranges 6 ∧
    (Interval.split { ranges := [⟨0, 8⟩], uses := [⟨.Any, 2, none⟩, ⟨.Any, 6, none⟩] } 4 false).2.uses =
      [⟨.Any, 6, none⟩] := by
  have h := split_spec { ranges := [⟨0, 8⟩], uses := [⟨.Any, 2, none⟩, ⟨.Any, 6, none⟩] } 4 false
    (by simp) (by simp [List.pairwise_cons]) (by decide) (by decide)
  constructor
  · exact (h.2.2.1 6).mpr ⟨⟨⟨0, 8⟩, by simp, by decide⟩, by decide⟩
  · rw [(h.2.2.2.2.2 rfl).2]
    decide

/-- In a sorted list of non-empty ranges, the head has the least start. -/
theorem sorted_head_start_le (r : LiveRange) (rest : List LiveRange)
    (hne : ∀ x ∈ r :: rest, x.start < x.stop)
    (hpw : (r :: rest).Pairwise (fun a b => a.stop < b.start)) :
    ∀ x ∈ r :: rest, r.start ≤ x.start := by
  intro x hx
  rcases List.mem_cons.mp hx with rfl | hx'
  · exact le_refl _
  · have h1 := (List.pairwise_cons.mp hpw).1 x hx'
    have h2 := hne r (List.mem_cons_self _ _)
    omega

/-- In a sorted list of non-empty ranges, the last element has the
greatest stop. -/
theorem sorted_stop_le_getLast (rs : List LiveRange)
    (hne : ∀ x ∈ rs, x.start < x.stop)
    (hpw : rs.Pairwise (fun a b => a.stop < b.start))
    (rl : LiveRange) (hl : rs.getLast? = some rl) :
    ∀ x ∈ rs, x.stop ≤ rl.stop := by
  induction rs with
  | nil => simp
  | cons r rest ih =>
    intro x hx
    cases hrest : rest with
    | nil =>
      subst hrest
      simp only [List.getLast?_singleton, Option.some.injEq] at hl
      rcases List.mem_singleton.mp hx with rfl
      rw [hl]
    | cons b l =>
      subst hrest
      rw [List.getLast?_cons_cons] at hl
      have hlmem : rl ∈ b :: l :=
        List.mem_of_mem_getLast? (by rw [hl]; rfl)
      have htail := ih (fun y hy => hne y (List.mem_cons_of_mem _ hy))
        (List.pairwise_cons.mp hpw).2 hl
      rcases List.mem_cons.mp hx with rfl | hx'
      · have h1 := (List.pairwise_cons.mp hpw).1 rl hlmem
        have h2 := hne rl (List.mem_cons_of_mem _ hlmem)
        omega
      · exact htail x hx'

/-- Correctness of the two-finger loop on sorted, disjoint, non-empty
range lists (with stops on the first list bounded below `kMaxPos`): the
result is the least position covered by both lists, or `kMaxPos` when
none exists. -/
theorem nextIntersectLoop_spec : ∀ (l1 l2 : List LiveRange),
    (∀ r ∈ l1, r.start < r.stop) →
    l1.Pairwise (fun a b => a.stop < b.start) →
    (∀ r ∈ l2, r.start < r.stop) →
    l2.Pairwise (fun a b => a.stop < b.start) →
    (∀ r ∈ l1, r.stop < kMaxPos) →
    ((nextIntersectLoop l1 l2 = kMaxPos →
        ∀ q, ¬(coveredBy l1 q ∧ coveredBy l2 q)) ∧
     (nextIntersectLoop l1 l2 ≠ kMaxPos →
        coveredBy l1 (nextIntersectLoop l1 l2) ∧
        coveredBy l2 (nextIntersectLoop l1 l2) ∧
        ∀ q < nextIntersectLoop l1 l2,
          ¬(coveredBy l1 q ∧ coveredBy l2 q)))
  | [], l2 => by
    intro _ _ _ _ _
    have hres : nextIntersectLoop [] l2 = kMaxPos := by
      simp [nextIntersectLoop]
    refine ⟨?_, fun hne => absurd hres hne⟩
    rintro - q ⟨⟨r, hr, -⟩, -⟩
    simp at hr
  | r1 :: t1, [] => by
    intro _ _ _ _ _
    have hres : nextIntersectLoop (r1 :: t1) [] = kMaxPos := by
      simp [nextIntersectLoop]
    refine ⟨?_, fun hne => absurd hres hne⟩
    rintro - q ⟨-, ⟨r, hr, -⟩⟩
    simp at hr
  | r1 :: t1, r2 :: t2 => by
    intro h1ne h1pw h2ne h2pw hb
    have hstep : nextIntersectLoop (r1 :: t1) (r2 :: t2) =
        if r1.start < r2.start then
          if r2.start < r1.stop then r2.start
          else nextIntersectLoop t1 (r2 :: t2)
        else
          if r1.start < r2.stop then r1.start
          else nextIntersectLoop (r1 :: t1) t2 := by
      rw [nextIntersectLoop]
    by_cases hlt : r1.start < r2.start
    · by_cases hint : r2.start < r1.stop
      · have hres : nextIntersectLoop (r1 :: t1) (r2 :: t2) = r2.start := by
          rw [hstep, if_pos hlt, if_pos hint]
        rw [hres]
        constructor
        · intro hkm
          exfalso
          have := hb r1 (List.mem_cons_self _ _)
          omega
        · intro _
          refine ⟨⟨r1, List.mem_cons_self _ _, ?_⟩,
            ⟨r2, List.mem_cons_self _ _, ?_⟩, ?_⟩
          · rw [containsPos_iff]
            omega
          · rw [containsPos_iff]
            have := h2ne r2 (List.mem_cons_self _ _)
            omega
          · rintro q hq ⟨-, ⟨r, hr, hc⟩⟩
            rw [containsPos_iff] at hc
            have := sorted_head_start_le r2 t2 h2ne h2pw r hr
            omega
      · have hres : nextIntersectLoop (r1 :: t1) (r2 :: t2) =
            nextIntersectLoop t1 (r2 :: t2) := by
          rw [hstep, if_pos hlt, if_neg hint]
        have ih := nextIntersectLoop_spec t1 (r2 :: t2)
          (fun r hr => h1ne r (List.mem_cons_of_mem _ hr))
          (List.pairwise_cons.mp h1pw).2 h2ne h2pw
          (fun r hr => hb r (List.mem_cons_of_mem _ hr))
        have hr1dead : ∀ q, r1.containsPos q = true →
            ¬coveredBy (r2 :: t2) q := by
          rintro q hq ⟨r, hr, hc⟩
          rw [containsPos_iff] at hq hc
          have := sorted_head_start_le r2 t2 h2ne h2pw r hr
          omega
        rw [hres]
        constructor
        · rintro hkm q ⟨⟨r, hr, hc⟩, hc2⟩
          rcases List.mem_cons.mp hr with rfl | hr'
          · exact hr1dead q hc hc2
          · exact (ih.1 hkm) q ⟨⟨r, hr', hc⟩, hc2⟩
        · intro hne
          obtain ⟨hca, hcb, hmin⟩ := ih.2 hne
          obtain ⟨r, hr, hc⟩ := hca
          refine ⟨⟨r, List.mem_cons_of_mem _ hr, hc⟩, hcb, ?_⟩
          rintro q hq ⟨⟨r', hr', hc'⟩, hc2⟩
          rcases List.mem_cons.mp hr' with rfl | hr''
          · exact hr1dead q hc' hc2
          · exact hmin q hq ⟨⟨r', hr'', hc'⟩, hc2⟩
    · push_neg at hlt
      by_cases hint : r1.start < r2.stop
      · have hres : nextIntersectLoop (r1 :: t1) (r2 :: t2) = r1.start := by
          rw [hstep, if_neg (by omega), if_pos hint]
        rw [hres]
        constructor
        · intro hkm
          exfalso
          have h1 := hb r1 (List.mem_cons_self _ _)
          have h2 := h1ne r1 (List.mem_cons_self _ _)
          omega
        · intro _
          refine ⟨⟨r1, List.mem_cons_self _ _, ?_⟩,
            ⟨r2, List.mem_cons_self _ _, ?_⟩, ?_⟩
          · rw [containsPos_iff]
            have := h1ne r1 (List.mem_cons_self _ _)
            omega
          · rw [containsPos_iff]
            omega
          · rintro q hq ⟨⟨r, hr, hc⟩, -⟩
            rw [containsPos_iff] at hc
            have := sorted_head_start_le r1 t1 h1ne h1pw r hr
            omega
      · have hres : nextIntersectLoop (r1 :: t1) (r2 :: t2) =
            nextIntersectLoop (r1 :: t1) t2 := by
          rw [hstep, if_neg (by omega), if_neg hint]
        have ih := nextIntersectLoop_spec (r1 :: t1) t2 h1ne h1pw
          (fun r hr => h2ne r (List.mem_cons_of_mem _ hr))
          (List.pairwise_cons.mp h2pw).2 hb
        have hr2dead : ∀ q, r2.containsPos q = true →
            ¬coveredBy (r1 :: t1) q := by
          rintro q hq ⟨r, hr, hc⟩
          rw [containsPos_iff] at hq hc
          have := sorted_head_start_le r1 t1 h1ne h1pw r hr
          omega
        rw [hres]
        constructor
        · rintro hkm q ⟨hc1, ⟨r, hr, hc⟩⟩
          rcases List.mem_cons.mp hr with rfl | hr'
          · exact hr2dead q hc hc1
          · exact (ih.1 hkm) q ⟨hc1, ⟨r, hr', hc⟩⟩
        · intro hne
          obtain ⟨hca, hcb, hmin⟩ := ih.2 hne
          obtain ⟨r, hr, hc⟩ := hcb
          refine ⟨hca, ⟨r, List.mem_cons_of_mem _ hr, hc⟩, ?_⟩
          rintro q hq ⟨hc1, ⟨r', hr', hc'⟩⟩
          rcases List.mem_cons.mp hr' with rfl | hr''
          · exact hr2dead q hc' hc1
          · exact hmin q hq ⟨hc1, ⟨r', hr'', hc'⟩⟩
termination_by l1 l2 => l1.length + l2.length
decreasing_by
  · simp
  · simp

/-- **C3 counterexample.**  Two identical unsplit, non-fixed intervals
`[[0,4))` cover position 0 in common, yet `nextIntersect` returns
`kMaxPos` through its SSA fast path — the claim "returns the smallest
position covered by both, or kMaxPos if none" is false without excluding
the both-unsplit case, where the code relies on the inactive-at-start
precondition instead of computing the intersection. -/
theorem nextIntersect_claim_counterexample :
    Interval.fixed ({ ranges := [⟨0, 4⟩] } : Interval) = false ∧
    coveredBy ({ ranges := [⟨0, 4⟩] } : Interval).ranges 0 ∧
    nextIntersect { ranges := [⟨0, 4⟩] } { ranges := [⟨0, 4⟩] } = kMaxPos ∧
    kMaxPos ≠ 0 := by
  refine ⟨rfl, ⟨⟨0, 4⟩, by simp, by decide⟩, by decide, by decide⟩

/-- **C3 (amended).**  For well-formed `a` (not fixed, per the assert) and
`b`: when both are unsplit and `b` is not fixed, `nextIntersect` returns
`kMaxPos` outright (the SSA fast path — justified in the allocator
because `b` is inactive at `a.start`); in every other configuration it
returns the smallest position covered by both range lists, or `kMaxPos`
when they share none. -/
theorem nextIntersect_spec (current other : Interval)
    (hcne : ∀ r ∈ current.ranges, r.start < r.stop)
    (hcpw : current.ranges.Pairwise (fun a b => a.stop < b.start))
    (hone : ∀ r ∈ other.ranges, r.start < r.stop)
    (hopw : other.ranges.Pairwise (fun a b => a.stop < b.start))
    (hcnil : current.ranges ≠ []) (honil : other.ranges ≠ [])
    (hbound : ∀ r ∈ current.ranges, r.stop < kMaxPos) :
    (current.parent = false ∧ other.parent = false ∧ other.fixed = false →
      nextIntersect current other = kMaxPos) ∧
    (other.fixed = true ∨ current.parent = true ∨ other.parent = true →
      (nextIntersect current other = kMaxPos →
        ∀ q, ¬(coveredBy current.ranges q ∧ coveredBy other.ranges q)) ∧
      (nextIntersect current other ≠ kMaxPos →
        coveredBy current.ranges (nextIntersect current other) ∧
        coveredBy other.ranges (nextIntersect current other) ∧
        ∀ q < nextIntersect current other,
          ¬(coveredBy current.ranges q ∧ coveredBy other.ranges q))) := by
  obtain ⟨c0, ct, hcc⟩ := List.exists_cons_of_ne_nil hcnil
  obtain ⟨o0, ot, hoo⟩ := List.exists_cons_of_ne_nil honil
  have hcstart : current.start = c0.start := by rw [Interval.start, hcc]
  have hostart : other.start = o0.start := by rw [Interval.start, hoo]
  obtain ⟨crl, hcrl⟩ := Option.isSome_iff_exists.mp
    (List.getLast?_isSome.mpr hcnil)
  have hcstop : current.stop = crl.stop := by simp [Interval.stop, hcrl]
  constructor
  · rintro ⟨hp1, hp2, hp3⟩
    simp [nextIntersect, hp1, hp2, hp3]
  · intro hdisj
    have hcond : (!current.parent && !other.parent && !other.fixed) = false := by
      rcases hdisj with h | h | h <;> simp [h]
    simp only [nextIntersect, hcond, Bool.false_eq_true, if_false]
    by_cases hfp2 : current.stop ≤ other.start
    · rw [if_pos hfp2]
      constructor
      · rintro - q ⟨⟨r, hr, hc⟩, ⟨r', hr', hc'⟩⟩
        rw [containsPos_iff] at hc hc'
        have h1 := sorted_stop_le_getLast current.ranges hcne hcpw crl hcrl
          r hr
        have h2 : o0.start ≤ r'.start := by
          have := sorted_head_start_le o0 ot
            (fun x hx => hone x (by rw [hoo]; exact hx))
            (by rw [← hoo]; exact hopw) r' (by rw [← hoo]; exact hr')
          exact this
        omega
      · intro hne
        exact absurd rfl hne
    · rw [if_neg hfp2]
      have hsubset : ∀ r ∈ other.ranges.drop
          (findRange other.ranges current.start), r ∈ other.ranges :=
        fun r hr => (List.drop_sublist _ _).subset hr
      have h2ne' : ∀ r ∈ other.ranges.drop
          (findRange other.ranges current.start), r.start < r.stop :=
        fun r hr => hone r (hsubset r hr)
      have h2pw' : (other.ranges.drop
          (findRange other.ranges current.start)).Pairwise
          (fun a b => a.stop < b.start) :=
        hopw.sublist (List.drop_sublist _ _)
      have htake := findRange_take_stop_le other.ranges current.start
      have hequiv : ∀ q, coveredBy current.ranges q →
          (coveredBy other.ranges q ↔ coveredBy (other.ranges.drop
            (findRange other.ranges current.start)) q) := by
        intro q hcq
        have hqge : current.start ≤ q := by
          obtain ⟨r, hr, hc⟩ := hcq
          rw [containsPos_iff] at hc
          have : c0.start ≤ r.start :=
            sorted_head_start_le c0 ct
              (fun x hx => hcne x (by rw [hcc]; exact hx))
              (by rw [← hcc]; exact hcpw) r (by rw [← hcc]; exact hr)
          omega
        constructor
        · rintro ⟨r, hr, hc⟩
          have hsplit' : other.ranges.take
              (findRange other.ranges current.start) ++
              other.ranges.drop (findRange other.ranges current.start) =
              other.ranges := List.take_append_drop _ _
          rw [← hsplit'] at hr
          rcases List.mem_append.mp hr with hr' | hr'
          · exfalso
            have := htake r hr'
            rw [containsPos_iff] at hc
            omega
          · exact ⟨r, hr', hc⟩
        · rintro ⟨r, hr, hc⟩
          exact ⟨r, hsubset r hr, hc⟩
      have hloop := nextIntersectLoop_spec current.ranges
        (other.ranges.drop (findRange other.ranges current.start))
        hcne hcpw h2ne' h2pw' hbound
      constructor
      · rintro hkm q ⟨hc1, hc2⟩
        exact hloop.1 hkm q ⟨hc1, (hequiv q hc1).mp hc2⟩
      · intro hne
        obtain ⟨ha, hb2, hmin⟩ := hloop.2 hne
        refine ⟨ha, (hequiv _ ha).mpr hb2, ?_⟩
        rintro q hq ⟨hc1, hc2⟩
        exact hmin q hq ⟨hc1, (hequiv q hc1).mp hc2⟩

/-- Witness for `nextIntersect_spec`: a split child `[[0,2))` against an
interval `[[4,6))` starting after its end: `nextIntersect` reports no
intersection, hence no position (e.g. 1) is covered by both. -/
theorem nextIntersect_spec_witness :
    ¬(coveredBy ({ parent := true, ranges := [⟨0, 2⟩] } : Interval).ranges 1 ∧
      coveredBy ({ ranges := [⟨4, 6⟩] } : Interval).ranges 1) := by
  have h := nextIntersect_spec { parent := true, ranges := [⟨0, 2⟩] }
    { ranges := [⟨4, 6⟩] }
    (by simp) (by simp) (by simp) (by simp)
    (by simp) (by simp) (by simp [kMaxPos])
  exact (h.2 (Or.inr (Or.inl rfl))).1 (by decide) 1

/-- A list equals its `dropLast` plus its last element. -/
theorem dropLast_append_of_getLast? (l : List (Nat × Nat)) (a : Nat × Nat)
    (h : l.getLast? = some a) : l.dropLast ++ [a] = l := by
  induction l with
  | nil => cases h
  | cons x xs ih =>
    cases hxs : xs with
    | nil =>
      subst hxs
      simp only [List.getLast?_singleton, Option.some.injEq] at h
      subst h
      simp
    | cons y ys =>
      subst hxs
      rw [List.getLast?_cons_cons] at h
      have := ih h
      simp only [List.dropLast_cons₂, List.cons_append, this]

/-- The slot invariant holds in every reachable state. -/
theorem slotInv_of_reach : ∀ s, SlotReach s → SlotInv s := by
  intro s h
  induction h with
  | init =>
    exact ⟨by simp [initSlotState], by simp [initSlotState],
      by simp [initSlotState]⟩
  | @step s' t hs hstep ih =>
    cases hstep with
    | assign st en hguard hlt hle =>
      obtain ⟨hpw, hbounds, hmode⟩ := ih
      have hnone : s'.owner = none := by
        cases ho : s'.owner with
        | none => rfl
        | some c =>
          rw [ho] at hmode
          obtain ⟨hwm, -⟩ := hmode
          rw [hwm] at hguard
          omega
      rw [hnone] at hmode
      refine ⟨?_, ?_, ?_, ?_⟩
      · rw [List.pairwise_append]
        refine ⟨hpw, by simp, ?_⟩
        intro a ha b hb
        rcases List.mem_singleton.mp hb with rfl
        have := hmode a ha
        omega
      · intro o ho
        rcases List.mem_append.mp ho with hmm | hmm
        · exact hbounds o hmm
        · rcases List.mem_singleton.mp hmm with rfl
          exact hle
      · exact rfl
      · exact List.getLast?_concat _
    | free st en hown =>
      obtain ⟨hpw, hbounds, hmode⟩ := ih
      rw [hown] at hmode
      obtain ⟨hwm, hlastq⟩ := hmode
      refine ⟨hpw, hbounds, ?_⟩
      intro o ho
      have howners : s'.owners.dropLast ++ [(st, en)] = s'.owners :=
        dropLast_append_of_getLast? _ _ hlastq
      rw [← howners] at ho
      rcases List.mem_append.mp ho with hmm | hmm
      · have hpw' : (s'.owners.dropLast ++ [(st, en)]).Pairwise
            (fun a b => a.2 ≤ b.1) := by
          rw [howners]
          exact hpw
        rw [List.pairwise_append] at hpw'
        have h1 := hpw'.2.2 o hmm (st, en) (List.mem_singleton_self _)
        have h2 : st ≤ en := hbounds (st, en) (by
          rw [← howners]
          exact List.mem_append_right _ (List.mem_singleton_self _))
        simp only at h1
        show o.2 ≤ en
        omega
      · rcases List.mem_singleton.mp hmm with rfl
        exact le_refl _

/-- A successful narrow slot search returns a slot whose watermark is at
or below the leader's start. -/
theorem findSlot_guard : ∀ (slots : List Nat) (lstart i : Nat),
    findSlot slots lstart = some i → slots.getD i 0 ≤ lstart := by
  intro slots
  induction slots with
  | nil => intro lstart i h; cases h
  | cons wm rest ih =>
    intro lstart i h
    by_cases hge : lstart ≥ wm
    · simp only [findSlot, if_pos hge, Option.some.injEq] at h
      subst h
      exact hge
    · simp only [findSlot, if_neg hge, Option.map_eq_some'] at h
      obtain ⟨i', hi', rfl⟩ := h
      rw [List.getD_cons_succ]
      exact ih lstart i' hi'

/-- A successful wide slot search returns an even slot such that both
its watermark and its neighbour's are at or below the leader's start. -/
theorem findSlotWide_guard : ∀ (slots : List Nat) (lstart i : Nat),
    findSlotWide slots lstart = some i →
    i % 2 = 0 ∧ slots.getD i 0 ≤ lstart ∧ slots.getD (i + 1) 0 ≤ lstart
  | [], lstart, i => by intro h; cases h
  | [wm], lstart, i => by intro h; cases h
  | wm0 :: wm1 :: rest, lstart, i => by
    intro h
    by_cases hge : lstart ≥ wm0 && lstart ≥ wm1
    · simp only [findSlotWide, if_pos hge, Option.some.injEq] at h
      subst h
      simp only [Bool.and_eq_true, decide_eq_true_eq, ge_iff_le] at hge
      exact ⟨rfl, hge.1, hge.2⟩
    · have hge' : (decide (lstart ≥ wm0) && decide (lstart ≥ wm1)) = false := by
        simpa using hge
      simp only [findSlotWide, hge', Bool.false_eq_true, if_false,
        Option.map_eq_some'] at h
      obtain ⟨i', hi', rfl⟩ := h
      obtain ⟨hev, hg0, hg1⟩ := findSlotWide_guard rest lstart i' hi'
      have e0 : i' + 2 = i' + 1 + 1 := by omega
      have e1 : i' + 2 + 1 = i' + 1 + 1 + 1 := by omega
      rw [e0, e1, List.getD_cons_succ, List.getD_cons_succ,
        List.getD_cons_succ, List.getD_cons_succ]
      exact ⟨by omega, hg0, hg1⟩

/-- **C6.** Spill-slot reuse is lifetime-disjoint: in every reachable
slot state, any two chains in the slot's owner history have disjoint
lifetimes; a slot is handed out only to a chain whose leader starts at or
after the recorded watermark (both searches), the watermark is `kMaxPos`
while owned and is released to the owning chain's end; and a wide
interval takes an even slot whose neighbour also passes the guard, with
both watermarks set to `kMaxPos`. -/
theorem spill_slot_reuse_spec :
    (∀ s, SlotReach s →
      s.owners.Pairwise (fun a b : Nat × Nat => a.2 ≤ b.1 ∨ b.2 ≤ a.1)) ∧
    (∀ slots lstart i, findSlot slots lstart = some i →
      slots.getD i 0 ≤ lstart) ∧
    (∀ slots lstart i, findSlotWide slots lstart = some i →
      i % 2 = 0 ∧ slots.getD i 0 ≤ lstart ∧ slots.getD (i + 1) 0 ≤ lstart) ∧
    (∀ st slot, slot + 1 < st.spill_slots.length →
      (assign_slot st slot true).spill_slots.getD slot 0 = kMaxPos ∧
      (assign_slot st slot true).spill_slots.getD (slot + 1) 0 = kMaxPos) := by
  refine ⟨?_, findSlot_guard, findSlotWide_guard, ?_⟩
  · intro s hs
    exact ((slotInv_of_reach s hs).1).imp (fun h => Or.inl h)
  · intro st slot hlen
    have hne : slot ≠ slot + 1 := by omega
    have hlt : slot < st.spill_slots.length := by omega
    constructor
    · show (((st.spill_slots.set slot kMaxPos).set (slot + 1)
          kMaxPos)).getD slot 0 = kMaxPos
      have h1 : ((st.spill_slots.set slot kMaxPos).set (slot + 1)
          kMaxPos).getD slot 0 =
          (st.spill_slots.set slot kMaxPos).getD slot 0 := by
        simp [List.getD, List.getElem?_set, hne.symm]
      rw [h1]
      simp [List.getD, List.getElem?_set, hlt]
    · show (((st.spill_slots.set slot kMaxPos).set (slot + 1)
          kMaxPos)).getD (slot + 1) 0 = kMaxPos
      simp [List.getD, List.getElem?_set, List.length_set, hlen]

/-- Witness for `spill_slot_reuse_spec`: the slot trace assign `[0,4)`,
free, assign `[6,8)` is reachable, so its two owners are
lifetime-disjoint; a concrete narrow search also passes its guard. -/
theorem spill_slot_reuse_spec_witness :
    List.Pairwise (fun a b : Nat × Nat => a.2 ≤ b.1 ∨ b.2 ≤ a.1)
      [(0, 4), (6, 8)] ∧
    List.getD [7, 3] 1 0 ≤ 5 := by
  constructor
  · have s1 : SlotStep initSlotState ⟨kMaxPos, some (0, 4), [(0, 4)]⟩ :=
      SlotStep.assign initSlotState 0 4 (by decide) (by decide) (by decide)
    have s2 : SlotStep (⟨kMaxPos, some (0, 4), [(0, 4)]⟩ : SlotState)
        ⟨4, none, [(0, 4)]⟩ :=
      SlotStep.free _ 0 4 rfl
    have s3 : SlotStep (⟨4, none, [(0, 4)]⟩ : SlotState)
        ⟨kMaxPos, some (6, 8), [(0, 4), (6, 8)]⟩ :=
      SlotStep.assign _ 6 8 (by decide) (by decide) (by decide)
    have hr : SlotReach ⟨kMaxPos, some (6, 8), [(0, 4), (6, 8)]⟩ :=
      SlotReach.step (SlotReach.step (SlotReach.step SlotReach.init s1) s2) s3
    exact spill_slot_reuse_spec.1 _ hr
  · exact spill_slot_reuse_spec.2.1 [7, 3] 5 1 (by decide)

/-- **C1 counterexample.**  On the diamond, `buildIntervals` produces
ranges `[[2,6), [8,10))` and uses `[2, 6, 10]`: the use at 6 (the branch
`B1`'s use, dead at the join) lies at the end of the *first* range — it
is in no range and not at the final range's end, refuting the claim's
"every use position lies within some range or exactly at the end of the
final range".  The input satisfies all structural side conditions (no
block empty, no use at a block's first instruction, no def/use overlap
in an instruction). -/
theorem buildIntervals_claim_counterexample :
    buildIntervalV diamondBlocks false = ([⟨2, 6⟩, ⟨8, 10⟩], [2, 6, 10]) ∧
    6 ∈ (buildIntervalV diamondBlocks false).2 ∧
    ¬(∃ r ∈ (buildIntervalV diamondBlocks false).1,
        r.containsPos 6 = true) ∧
    ¬(∃ r, ((buildIntervalV diamondBlocks false).1).getLast? = some r ∧
        6 = r.stop) ∧
    (∀ b ∈ diamondBlocks, b.insts ≠ []) ∧
    (∀ b ∈ diamondBlocks, ∀ i, b.insts.head? = some i →
      i.hasUse = false ∧ i.hasAcross = false) ∧
    (∀ b ∈ diamondBlocks, ∀ i ∈ b.insts,
      i.hasDef = true → i.hasUse = false ∧ i.hasAcross = false) ∧
    (∀ b ∈ diamondBlocks, ∀ i ∈ b.insts,
      ¬(i.hasUse = true ∧ i.hasAcross = true)) := by
  decide

theorem starts_lb (rs : List LiveRange)
    (hval : ∀ x ∈ rs, x.start < x.stop)
    (hchain : List.Chain' (fun a b : LiveRange => a.stop < b.start) rs)
    (c : Nat) (hc : ∀ x, rs.head? = some x → c ≤ x.start) :
    ∀ x ∈ rs, c ≤ x.start := by
  induction rs with
  | nil => intro x hx; simp at hx
  | cons a l ih =>
    rw [List.chain'_cons'] at hchain
    intro x hx
    rcases List.mem_cons.mp hx with rfl | hx
    · exact hc x rfl
    · refine ih (fun y hy => hval y (List.mem_cons_of_mem _ hy)) hchain.2 ?_ x hx
      intro y hy
      have h1 := hchain.1 y (by simpa using hy)
      have h2 := hval a (List.mem_cons_self _ _)
      have h3 := hc a rfl
      omega

theorem addRange_ne (rs : List LiveRange) (r : LiveRange) :
    addRange rs r ≠ [] := by
  induction rs with
  | nil => simp [addRange]
  | cons a l ih =>
    simp only [addRange]
    split
    · exact ih
    · split
      · simp
      · split
        · simp
        · simp

theorem addRange_wf (rs : List LiveRange) (r : LiveRange)
    (hval : ∀ x ∈ rs, x.start < x.stop)
    (hchain : List.Chain' (fun a b : LiveRange => a.stop < b.start) rs)
    (hr : r.start < r.stop)
    (hstart : ∀ x ∈ rs, r.start ≤ x.start) :
    (∀ x ∈ addRange rs r, x.start < x.stop) ∧
    List.Chain' (fun a b : LiveRange => a.stop < b.start) (addRange rs r) ∧
    (∀ x ∈ addRange rs r, r.start ≤ x.start) ∧
    (∃ x ∈ addRange rs r, x.start ≤ r.start ∧ r.stop ≤ x.stop) ∧
    (∀ x ∈ addRange rs r, r.stop ≤ x.stop ∨ x ∈ rs) ∧
    (∀ u : Nat, (∃ x ∈ rs, x.start ≤ u ∧ u ≤ x.stop) →
      ∃ x ∈ addRange rs r, x.start ≤ u ∧ u ≤ x.stop) := by
  induction rs with
  | nil =>
    refine ⟨?_, ?_, ?_, ?_, ?_, ?_⟩ <;> simp [addRange]
    omega
  | cons a l ih =>
    have hvl : ∀ x ∈ l, x.start < x.stop :=
      fun x hx => hval x (List.mem_cons_of_mem _ hx)
    have hcl : List.Chain' (fun a b : LiveRange => a.stop < b.start) l :=
      (List.chain'_cons'.mp hchain).2
    have hsl : ∀ x ∈ l, r.start ≤ x.start :=
      fun x hx => hstart x (List.mem_cons_of_mem _ hx)
    have hva : a.start < a.stop := hval a (List.mem_cons_self _ _)
    have hsa : r.start ≤ a.start := hstart a (List.mem_cons_self _ _)
    simp only [addRange]
    by_cases hcont : r.containsRange a
    · -- pop case: a is contained in r, recurse on l
      rw [if_pos hcont]
      have hconta : a.start ≥ r.start ∧ a.stop ≤ r.stop := by
        simpa [LiveRange.containsRange] using hcont
      obtain ⟨h1, h2, h3, h4, h5, h6⟩ := ih hvl hcl hsl
      refine ⟨h1, h2, h3, h4, ?_, ?_⟩
      · intro x hx
        rcases h5 x hx with h | h
        · exact Or.inl h
        · exact Or.inr (List.mem_cons_of_mem _ h)
      · intro u hu
        rcases hu with ⟨x, hx, hxu⟩
        rcases List.mem_cons.mp hx with rfl | hx
        · -- u was covered by the popped a ⊆ r; use the new-coverage witness
          rcases h4 with ⟨y, hy, hy1, hy2⟩
          exact ⟨y, hy, by omega, by omega⟩
        · exact h6 u ⟨x, hx, hxu⟩
    · rw [if_neg hcont]
      have hnconta : ¬(a.start ≥ r.start ∧ a.stop ≤ r.stop) := by
        simpa [LiveRange.containsRange] using hcont
      have hstop : r.stop < a.stop := by omega
      by_cases hc2 : a.containsRange r
      · -- unchanged
        rw [if_pos hc2]
        have hc2' : r.start ≥ a.start ∧ r.stop ≤ a.stop := by
          simpa [LiveRange.containsRange] using hc2
        refine ⟨hval, hchain, hstart, ⟨a, List.mem_cons_self _ _, by omega, by omega⟩,
          fun x hx => Or.inr hx, fun u hu => hu⟩
      · rw [if_neg hc2]
        by_cases hc3 : r.stop ≥ a.start
        · -- merge: a.start := r.start
          rw [if_pos hc3]
          rw [List.chain'_cons'] at hchain
          constructor
          · intro x hx
            rcases List.mem_cons.mp hx with rfl | hx
            · simpa using by omega
            · exact hvl x hx
          refine ⟨?_, ?_, ?_, ?_, ?_⟩
          · rw [List.chain'_cons']
            exact ⟨fun y hy => hchain.1 y hy, hchain.2⟩
          · intro x hx
            rcases List.mem_cons.mp hx with rfl | hx
            · exact le_refl _
            · exact hsl x hx
          · exact ⟨⟨r.start, a.stop⟩, List.mem_cons_self _ _, le_refl _,
              show r.stop ≤ a.stop by omega⟩
          · intro x hx
            rcases List.mem_cons.mp hx with rfl | hx
            · exact Or.inl (by simpa using by omega)
            · exact Or.inr (List.mem_cons_of_mem _ hx)
          · intro u hu
            rcases hu with ⟨x, hx, hxu⟩
            rcases List.mem_cons.mp hx with rfl | hx
            · exact ⟨⟨r.start, x.stop⟩, List.mem_cons_self _ _,
                show r.start ≤ u by omega, show u ≤ x.stop by omega⟩
            · exact ⟨x, List.mem_cons_of_mem _ hx, hxu⟩
        · -- push r in front
          rw [if_neg hc3]
          constructor
          · intro x hx
            rcases List.mem_cons.mp hx with rfl | hx
            · exact hr
            · exact hval x hx
          refine ⟨?_, ?_, ?_, ?_, ?_⟩
          · rw [List.chain'_cons']
            refine ⟨?_, hchain⟩
            intro y hy
            simp at hy
            subst hy
            omega
          · intro x hx
            rcases List.mem_cons.mp hx with rfl | hx
            · exact le_refl _
            · exact hstart x hx
          · exact ⟨r, List.mem_cons_self _ _, le_refl _, le_refl _⟩
          · intro x hx
            rcases List.mem_cons.mp hx with rfl | hx
            · exact Or.inl (le_refl _)
            · exact Or.inr hx
          · intro u hu
            rcases hu with ⟨x, hx, hxu⟩
            exact ⟨x, List.mem_cons_of_mem _ hx, hxu⟩

theorem BInv_mono {st : BuildState} {β q : Nat} (q' : Nat) (h : BInv st β q)
    (hq : q' ≤ q) : BInv st β q' := by
  refine ⟨h.valid, h.sep, h.usesSorted, h.coverage, h.startLB, ?_, ?_, h.liveNe, ?_⟩
  · intro x hx; exact le_trans hq (h.stopLB x hx)
  · intro u hu; exact le_trans hq (h.usesLB u hu)
  · intro hl x hx; exact le_trans hq (h.deadHead hl x hx)

theorem pushEvent_inv {st : BuildState} {β q : Nat} (h : BInv st β q)
    (r : LiveRange) (u : Nat) (lv : Bool) (p : Nat)
    (hstart : ∀ x ∈ st.ranges, r.start ≤ x.start)
    (hβr : β ≤ r.start) (hr : r.start < r.stop)
    (hpq : p ≤ q) (hpstop : p ≤ r.stop)
    (hru : r.start ≤ u) (hur : u ≤ r.stop) (hpu : p ≤ u) (huq : u ≤ q)
    (hdead : lv = false → p ≤ r.start) :
    BInv (pushEvent st r u lv) β p := by
  obtain ⟨h1, h2, h3, h4, h5, h6⟩ := addRange_wf st.ranges r h.valid h.sep hr hstart
  refine ⟨h1, h2, ?_, ?_, ?_, ?_, ?_, ?_, ?_⟩
  · -- usesSorted
    rw [show (pushEvent st r u lv).uses = u :: st.uses from rfl, List.chain'_cons']
    refine ⟨?_, h.usesSorted⟩
    intro y hy
    have : y ∈ st.uses := List.mem_of_mem_head? hy
    exact le_trans huq (h.usesLB y this)
  · -- coverage
    intro v hv
    rcases List.mem_cons.mp hv with rfl | hv
    · rcases h4 with ⟨x, hx, hx1, hx2⟩
      exact ⟨x, hx, by omega, by omega⟩
    · exact h6 v (h.coverage v hv)
  · -- startLB
    intro x hx
    exact le_trans hβr (h3 x hx)
  · -- stopLB
    intro x hx
    rcases h5 x hx with hle | hmem
    · omega
    · exact le_trans hpq (h.stopLB x hmem)
  · -- usesLB
    intro v hv
    rcases List.mem_cons.mp hv with rfl | hv
    · exact hpu
    · exact le_trans hpq (h.usesLB v hv)
  · -- liveNe
    intro _
    exact addRange_ne st.ranges r
  · -- deadHead
    intro hlv x hx
    have : x ∈ addRange st.ranges r := List.mem_of_mem_head? hx
    exact le_trans (hdead hlv) (h3 x this)

theorem doInstr_inv {st : BuildState} {β p : Nat} (i : PInstr)
    (h : BInv st β (p + 2)) (hβp : β ≤ p)
    (hu : i.hasUse = true → β < p) :
    BInv (doInstr st i β p) β p := by
  have hstep1 : BInv (if i.hasDef then
      if st.live then
        { live := false,
          ranges := match st.ranges with
                    | first :: rest => { first with start := p } :: rest
                    | [] => [],
          uses := p :: st.uses }
      else pushEvent st ⟨p, p + 1⟩ p false
    else st) β p := by
    by_cases hd : i.hasDef
    · rw [if_pos hd]
      by_cases hl : st.live
      · rw [if_pos hl]
        have hne := h.liveNe hl
        rcases hrs : st.ranges with _ | ⟨first, rest⟩
        · exact absurd hrs hne
        show BInv { live := false, ranges := { first with start := p } :: rest, uses := p :: st.uses } β p
        have hmem : ∀ x ∈ rest, x ∈ st.ranges := by
          intro x hx
          rw [hrs]
          exact List.mem_cons_of_mem _ hx
        have hmemf : first ∈ st.ranges := by
          rw [hrs]
          exact List.mem_cons_self _ _
        have hchain := h.sep
        rw [hrs, List.chain'_cons'] at hchain
        have hstopf : p + 2 ≤ first.stop := h.stopLB first hmemf
        refine ⟨?_, ?_, ?_, ?_, ?_, ?_, ?_, ?_, ?_⟩
        · intro x hx
          rcases List.mem_cons.mp hx with rfl | hx
          · show p < first.stop
            omega
          · exact h.valid x (hmem x hx)
        · rw [List.chain'_cons']
          exact ⟨fun y hy => hchain.1 y hy, hchain.2⟩
        · rw [List.chain'_cons']
          refine ⟨?_, h.usesSorted⟩
          intro y hy
          have hym : y ∈ st.uses := List.mem_of_mem_head? hy
          have := h.usesLB y hym
          omega
        · intro v hv
          rcases List.mem_cons.mp hv with hv0 | hv
          · refine ⟨{ first with start := p }, List.mem_cons_self _ _, ?_, ?_⟩
            · show p ≤ v
              omega
            · show v ≤ first.stop
              omega
          · rcases h.coverage v hv with ⟨x, hx, hx1, hx2⟩
            rw [hrs] at hx
            have husp := h.usesLB v hv
            rcases List.mem_cons.mp hx with hx0 | hx
            · refine ⟨{ first with start := p }, List.mem_cons_self _ _, ?_, ?_⟩
              · show p ≤ v
                omega
              · show v ≤ first.stop
                rw [hx0] at hx2
                exact hx2
            · exact ⟨x, List.mem_cons_of_mem _ hx, hx1, hx2⟩
        · intro x hx
          rcases List.mem_cons.mp hx with rfl | hx
          · exact hβp
          · exact h.startLB x (hmem x hx)
        · intro x hx
          rcases List.mem_cons.mp hx with rfl | hx
          · show p ≤ first.stop
            omega
          · have := h.stopLB x (hmem x hx)
            omega
        · intro v hv
          rcases List.mem_cons.mp hv with rfl | hv
          · exact le_refl _
          · have := h.usesLB v hv
            omega
        · intro hfalse
          simp at hfalse
        · intro _ x hx
          simp only [List.head?_cons, Option.some.injEq] at hx
          subst hx
          exact le_refl _
      · rw [if_neg hl]
        have hdd : ∀ x ∈ st.ranges, p ≤ x.start := by
          refine starts_lb st.ranges h.valid h.sep p ?_
          intro x hx
          have := h.deadHead (by simpa using hl) x hx
          omega
        exact pushEvent_inv (BInv_mono p h (by omega)) ⟨p, p + 1⟩ p false p
          hdd hβp (Nat.lt_succ_self p) (le_refl _) (Nat.le_succ p)
          (le_refl _) (Nat.le_succ p) (le_refl _) (le_refl _)
          (fun _ => le_refl _)
    · rw [if_neg hd]
      exact BInv_mono p h (by omega)
  set st1 := (if i.hasDef then
      if st.live then
        { live := false,
          ranges := match st.ranges with
                    | first :: rest => { first with start := p } :: rest
                    | [] => [],
          uses := p :: st.uses }
      else pushEvent st ⟨p, p + 1⟩ p false
    else st) with hst1
  have hstep2 : BInv (if i.hasUse then pushEvent st1 ⟨β, p⟩ p true else st1) β p := by
    by_cases huse : i.hasUse
    · rw [if_pos huse]
      exact pushEvent_inv hstep1 ⟨β, p⟩ p true p
        (fun x hx => hstep1.startLB x hx) (le_refl _) (hu huse)
        (le_refl _) (le_refl _) hβp (le_refl _) (le_refl _) (le_refl _)
        (by simp)
    · rw [if_neg huse]
      exact hstep1
  set st2 := (if i.hasUse then pushEvent st1 ⟨β, p⟩ p true else st1) with hst2
  show BInv (if i.hasAcross then pushEvent st2 ⟨β, p + 1⟩ p true else st2) β p
  by_cases ha : i.hasAcross
  · rw [if_pos ha]
    exact pushEvent_inv hstep2 ⟨β, p + 1⟩ p true p
      (fun x hx => hstep2.startLB x hx) (le_refl _) (show β < p + 1 by omega)
      (le_refl _) (Nat.le_succ p) hβp (Nat.le_succ p) (le_refl _) (le_refl _)
      (by simp)
  · rw [if_neg ha]
    exact hstep2

theorem doInstrsRev_inv (insts : List PInstr) (β : Nat) : ∀ (p : Nat)
    (st : BuildState), BInv st β (p + 2 * insts.length) → β ≤ p →
    (∀ i, insts.head? = some i → i.hasUse = true → β < p) →
    BInv (doInstrsRev insts β p st) β p := by
  induction insts with
  | nil =>
    intro p st h _ _
    simpa using h
  | cons i rest ih =>
    intro p st h hβp hhead
    show BInv (doInstr (doInstrsRev rest β (p + 2) st) i β p) β p
    refine doInstr_inv i ?_ hβp (hhead i rfl)
    refine ih (p + 2) st ?_ (by omega) (fun i1 h1 h2 => by omega)
    have heq : p + 2 * (i :: rest).length = p + 2 + 2 * rest.length := by
      simp only [List.length_cons]
      omega
    exact heq ▸ h

theorem doBlock_inv (st : BuildState) (b : PBlock) (s : Nat)
    (hne : b.insts ≠ [])
    (hhead : ∀ i, b.insts.head? = some i → i.hasUse = false)
    (h : BInv st (s + 2 * b.insts.length) (s + 2 * b.insts.length)) :
    BInv (doBlock st b ⟨s, s + 2 * b.insts.length⟩) s s := by
  have hlen : 1 ≤ b.insts.length := by
    cases hb : b.insts with
    | nil => exact absurd hb hne
    | cons x xs => simp [hb]
  have h0 : BInv { live := b.liveOut, ranges := if b.liveOut then addRange st.ranges ⟨s, s + 2 * b.insts.length⟩ else st.ranges, uses := st.uses } s (s + 2 * b.insts.length) := by
    by_cases hlo : b.liveOut
    · rw [if_pos hlo]
      have hstart : ∀ x ∈ st.ranges,
          (⟨s, s + 2 * b.insts.length⟩ : LiveRange).start ≤ x.start := by
        intro x hx
        have := h.startLB x hx
        show s ≤ x.start
        omega
      obtain ⟨h1, h2, h3, h4, h5, h6⟩ := addRange_wf st.ranges
        ⟨s, s + 2 * b.insts.length⟩ h.valid h.sep (show s < s + 2 * b.insts.length by omega)
        hstart
      refine ⟨h1, h2, h.usesSorted, ?_, h3, ?_, h.usesLB, ?_, ?_⟩
      · intro u hu
        exact h6 u (h.coverage u hu)
      · intro x hx
        rcases h5 x hx with hle | hmem
        · exact hle
        · exact h.stopLB x hmem
      · intro _
        exact addRange_ne _ _
      · intro hcontra
        rw [hlo] at hcontra
        exact absurd hcontra (by simp)
    · rw [if_neg hlo]
      refine ⟨h.valid, h.sep, h.usesSorted, h.coverage, ?_, h.stopLB, h.usesLB, ?_, ?_⟩
      · intro x hx
        have := h.startLB x hx
        omega
      · intro hcontra
        rw [eq_false hlo] at hcontra
        exact absurd hcontra (by simp)
      · intro _ x hx
        exact h.startLB x (List.mem_of_mem_head? hx)
  show BInv (doInstrsRev b.insts s s
    { live := b.liveOut, ranges := if b.liveOut then addRange st.ranges ⟨s, s + 2 * b.insts.length⟩ else st.ranges, uses := st.uses }) s s
  refine doInstrsRev_inv b.insts s s _ h0 (le_refl s) ?_
  intro i hi hiu
  rw [hhead i hi] at hiu
  exact absurd hiu (by simp)

theorem buildPass_inv : ∀ (blocks : List PBlock) (pos : Nat) (st : BuildState),
    (∀ b ∈ blocks, b.insts ≠ []) →
    (∀ b ∈ blocks, ∀ i, b.insts.head? = some i → i.hasUse = false) →
    BInv st (endPos blocks pos) (endPos blocks pos) →
    BInv (buildPass (positionBlocks blocks pos) st) pos pos := by
  intro blocks
  induction blocks with
  | nil =>
    intro pos st _ _ h
    simpa [endPos, positionBlocks, buildPass] using h
  | cons b rest ih =>
    intro pos st hne hhead h
    show BInv (doBlock (buildPass (positionBlocks rest (pos + 2 * b.insts.length)) st) b ⟨pos, pos + 2 * b.insts.length⟩) pos pos
    refine doBlock_inv _ b pos (hne b (List.mem_cons_self _ _))
      (hhead b (List.mem_cons_self _ _)) ?_
    exact ih (pos + 2 * b.insts.length) st
      (fun x hx => hne x (List.mem_cons_of_mem _ hx))
      (fun x hx => hhead x (List.mem_cons_of_mem _ hx)) h

theorem doInstr_ranges_ne (st : BuildState) (i : PInstr) (β p : Nat)
    (h : st.ranges ≠ []) : (doInstr st i β p).ranges ≠ [] := by
  rcases i with ⟨hd, hu, ha⟩
  rcases hrs : st.ranges with _ | ⟨first, rest⟩
  · exact absurd hrs h
  cases hd <;> cases hu <;> cases ha <;> cases hl : st.live <;>
    simp [doInstr, pushEvent, hrs, hl, addRange_ne]

theorem doInstrsRev_ranges_ne (insts : List PInstr) (β : Nat) :
    ∀ (p : Nat) (st : BuildState), st.ranges ≠ [] →
    (doInstrsRev insts β p st).ranges ≠ [] := by
  induction insts with
  | nil => intro p st h; exact h
  | cons i rest ih =>
    intro p st h
    exact doInstr_ranges_ne _ i β p (ih (p + 2) st h)

theorem doBlock_ranges_ne (st : BuildState) (b : PBlock) (r : LiveRange)
    (h : st.ranges ≠ [] ∨ b.liveOut = true) :
    (doBlock st b r).ranges ≠ [] := by
  refine doInstrsRev_ranges_ne _ _ _ _ ?_
  show (if b.liveOut then addRange st.ranges r else st.ranges) ≠ []
  by_cases hlo : b.liveOut
  · rw [if_pos hlo]
    exact addRange_ne _ _
  · rw [if_neg hlo]
    rcases h with h | h
    · exact h
    · exact absurd h hlo

theorem buildPass_ranges_ne : ∀ (blocks : List PBlock) (pos : Nat)
    (st : BuildState),
    (st.ranges ≠ [] ∨ ∃ b ∈ blocks, b.liveOut = true) →
    (buildPass (positionBlocks blocks pos) st).ranges ≠ [] := by
  intro blocks
  induction blocks with
  | nil =>
    intro pos st h
    rcases h with h | ⟨b, hb, _⟩
    · exact h
    · simp at hb
  | cons b rest ih =>
    intro pos st h
    show (doBlock (buildPass (positionBlocks rest (pos + 2 * b.insts.length)) st) b ⟨pos, pos + 2 * b.insts.length⟩).ranges ≠ []
    refine doBlock_ranges_ne _ _ _ ?_
    by_cases hb : b.liveOut
    · exact Or.inr hb
    · left
      refine ih (pos + 2 * b.insts.length) st ?_
      rcases h with h | ⟨b1, hb1, hlo⟩
      · exact Or.inl h
      · rcases List.mem_cons.mp hb1 with rfl | hb1
        · exact absurd hlo hb
        · exact Or.inr ⟨b1, hb1, hlo⟩

/-- **C1 (amended).**  Interval well-formedness out of `buildIntervals`,
for a unit whose blocks are non-empty and never carry a use at their
first instruction (`computePositions` prepends a `nop` to any block whose
front instruction has uses): every range is non-empty (`start < stop`),
ranges are ascending and strictly separated, use positions are monotone
non-decreasing, the ranges list is non-empty whenever the interval was
touched (some use was recorded or the vreg is live out of some block),
and — the amended coverage clause — every use position lies within some
range or exactly at the end of SOME range (not necessarily the final
one: see `buildIntervals_claim_counterexample`). -/
theorem buildIntervals_wf (blocks : List PBlock) (isConst : Bool)
    (hne : ∀ b ∈ blocks, b.insts ≠ [])
    (hhead : ∀ b ∈ blocks, ∀ i, b.insts.head? = some i → i.hasUse = false) :
    (∀ x ∈ (buildIntervalV blocks isConst).1, x.start < x.stop) ∧
    List.Chain' (fun a b => a.stop < b.start) (buildIntervalV blocks isConst).1 ∧
    List.Chain' (· ≤ ·) (buildIntervalV blocks isConst).2 ∧
    (∀ u ∈ (buildIntervalV blocks isConst).2,
      ∃ x ∈ (buildIntervalV blocks isConst).1, x.start ≤ u ∧ u ≤ x.stop) ∧
    (((buildIntervalV blocks isConst).2 ≠ [] ∨ ∃ b ∈ blocks, b.liveOut = true) →
      (buildIntervalV blocks isConst).1 ≠ []) := by
  have h0 : BInv ⟨false, [], []⟩ (endPos blocks 0) (endPos blocks 0) := by
    refine ⟨?_, ?_, ?_, ?_, ?_, ?_, ?_, ?_, ?_⟩ <;> simp
  have hmain := buildPass_inv blocks 0 ⟨false, [], []⟩ hne hhead h0
  have hst2 : (buildIntervalV blocks isConst).2 =
      (buildPass (positionBlocks blocks 0) ⟨false, [], []⟩).uses := rfl
  have hnerne : ((buildIntervalV blocks isConst).2 ≠ [] ∨ ∃ b ∈ blocks, b.liveOut = true) →
      (buildPass (positionBlocks blocks 0) ⟨false, [], []⟩).ranges ≠ [] := by
    intro hor
    rcases hor with huse | hlo
    · rw [hst2] at huse
      rcases List.exists_mem_of_ne_nil _ huse with ⟨u, hu⟩
      rcases hmain.coverage u hu with ⟨x, hx, _⟩
      exact List.ne_nil_of_mem hx
    · exact buildPass_ranges_ne blocks 0 ⟨false, [], []⟩ (Or.inr hlo)
  cases isConst with
  | false =>
    have hst1 : (buildIntervalV blocks false).1 =
        (buildPass (positionBlocks blocks 0) ⟨false, [], []⟩).ranges := rfl
    rw [hst1, hst2]
    exact ⟨hmain.valid, hmain.sep, hmain.usesSorted, hmain.coverage,
      fun hor => hnerne hor⟩
  | true =>
    rcases hrs : (buildPass (positionBlocks blocks 0) ⟨false, [], []⟩).ranges
      with _ | ⟨first, rest⟩
    · have hst1 : (buildIntervalV blocks true).1 = [] := by
        show (match (buildPass (positionBlocks blocks 0) ⟨false, [], []⟩).ranges with
          | first :: rest => { first with start := 0 } :: rest
          | [] => ([] : List LiveRange)) = []
        rw [hrs]
      rw [hst1, hst2]
      refine ⟨by simp, by simp, hmain.usesSorted, ?_, ?_⟩
      · intro u hu
        rcases hmain.coverage u hu with ⟨x, hx, _⟩
        rw [hrs] at hx
        simp at hx
      · intro hor
        exact absurd hrs (hnerne hor)
    · have hst1 : (buildIntervalV blocks true).1 = { first with start := 0 } :: rest := by
        show (match (buildPass (positionBlocks blocks 0) ⟨false, [], []⟩).ranges with
          | first :: rest => { first with start := 0 } :: rest
          | [] => ([] : List LiveRange)) = _
        rw [hrs]
      have hchain := hmain.sep
      rw [hrs, List.chain'_cons'] at hchain
      have hvf : first.start < first.stop :=
        hmain.valid first (by rw [hrs]; exact List.mem_cons_self _ _)
      rw [hst1, hst2]
      refine ⟨?_, ?_, hmain.usesSorted, ?_, ?_⟩
      · intro x hx
        rcases List.mem_cons.mp hx with hx0 | hx
        · rw [hx0]
          show (0 : Nat) < first.stop
          omega
        · exact hmain.valid x (by rw [hrs]; exact List.mem_cons_of_mem _ hx)
      · rw [List.chain'_cons']
        exact ⟨fun y hy => hchain.1 y hy, hchain.2⟩
      · intro u hu
        rcases hmain.coverage u hu with ⟨x, hx, hx1, hx2⟩
        rw [hrs] at hx
        rcases List.mem_cons.mp hx with hx0 | hx
        · refine ⟨{ first with start := 0 }, List.mem_cons_self _ _, ?_, ?_⟩
          · show (0 : Nat) ≤ u
            omega
          · show u ≤ first.stop
            rw [hx0] at hx2
            exact hx2
        · exact ⟨x, List.mem_cons_of_mem _ hx, hx1, hx2⟩
      · intro _
        simp

/-- Witness for `buildIntervals_wf` on the concrete diamond unit. -/
theorem buildIntervals_wf_witness :
    (∀ b ∈ diamondBlocks, b.insts ≠ []) ∧
    (∀ b ∈ diamondBlocks, ∀ i, b.insts.head? = some i → i.hasUse = false) ∧
    ((∀ x ∈ (buildIntervalV diamondBlocks false).1, x.start < x.stop) ∧
     List.Chain' (fun a b => a.stop < b.start) (buildIntervalV diamondBlocks false).1 ∧
     List.Chain' (· ≤ ·) (buildIntervalV diamondBlocks false).2 ∧
     (∀ u ∈ (buildIntervalV diamondBlocks false).2,
       ∃ x ∈ (buildIntervalV diamondBlocks false).1, x.start ≤ u ∧ u ≤ x.stop) ∧
     (((buildIntervalV diamondBlocks false).2 ≠ [] ∨ ∃ b ∈ diamondBlocks, b.liveOut = true) →
       (buildIntervalV diamondBlocks false).1 ≠ [])) :=
  ⟨by decide, by decide, buildIntervals_wf diamondBlocks false (by decide) (by decide)⟩


end VasmXls
